import Mathlib

/-!
Verification development for the cevast repository (crocs-muni/cevast).

The definitions below are a shallow embedding of the Python sources:

* `cevast/certdb/cert_file_db.py` — `CertFileDBReadOnly`, `CertFileDB`
  (block addressing, transaction dictionaries, existence cache,
  `insert`/`delete`/`get`/`exists`/`exists_all`/`commit`/`rollback`,
  the static helpers `delete_certs` and `persist_certs`, and
  `__write_commit_info`);
* `cevast/certdb/composite_cert_db.py` — `CompositeCertDB(ReadOnly)`;
* `cevast/dataset/unifiers/rapid.py` — `RapidUnifier.parse_chains`,
  `store_certs`, `store_chains`;
* `cevast/dataset/managers/rapid.py` — the error dispatch of
  `RapidDatasetManager.__unify`;
* `cevast/analysis/chain_validator.py` — `ChainValidator._validate`;
* `cevast/utils/cert_utils.py` — `BASE64_to_PEM`, `make_PEM_filename`.

Python strings are modelled as `List Char`, the filesystem as a function
from path strings to nodes (a regular file or a ZIP archive given by its
ordered member list).  Machine-level concerns (directory creation and
pruning, gzip framing, byte-level ZIP layout) are abstracted away; every
file content and archive member is the exact string the code wrote.
-/

namespace Cevast

/-- Python strings, byte/char-level. -/
abbrev Str := List Char

/-- A node of the modelled filesystem: a plain file with its content, or a
ZIP archive with its ordered list of (member name, member content). -/
inductive FSNode where
  | file (content : Str)
  | zipArchive (members : List (Str × Str))
deriving DecidableEq

/-- The filesystem: a map from path strings to nodes.  Directories are not
modelled; `os.makedirs` and `remove_empty_folders` are no-ops here. -/
def FS := Str → Option FSNode

/-- Point update of the filesystem (`none` models `os.remove`). -/
def fsSet (fs : FS) (p : Str) (v : Option FSNode) : FS :=
  fun q => if q = p then v else fs q

/-- The empty filesystem. -/
def emptyFS : FS := fun _ => none

/-- Python `"sep".join(parts)`. -/
def jn (sep : Str) : List Str → Str
  | [] => []
  | [x] => x
  | x :: y :: xs => x ++ sep ++ jn sep (y :: xs)

/-- Python `os.path.basename`: the part of the path after the last slash. -/
def baseName (p : Str) : Str :=
  (p.reverse.takeWhile (fun c => c ≠ '/')).reverse

/-- Python `os.path.splitext(p)[0]` restricted to the last path component:
drop the extension at the last dot unless every character before that dot
is itself a dot. -/
def splitLastDot (base : Str) : Str :=
  let rev := base.reverse
  let ext := rev.takeWhile (fun c => c ≠ '.')
  if ext.length = rev.length then base
  else
    let stem := (rev.drop (ext.length + 1)).reverse
    if stem.all (fun c => c = '.') then base else stem

/-- Python `os.path.splitext(p)[0]`. -/
def splitextStem (p : Str) : Str :=
  let base := (p.reverse.takeWhile (fun c => c ≠ '/')).reverse
  let dir := p.take (p.length - base.length)
  dir ++ splitLastDot base

/-- Content of a plain file; the sources raise `FileNotFoundError` where
this returns the default, and every theorem below only evaluates it at
paths holding a plain file. -/
def fileContent (fs : FS) (p : Str) : Str :=
  match fs p with
  | some (FSNode.file c) => c
  | _ => []

/-- Member lookup in a ZIP archive node (`ZipFile.getinfo` / `read`);
`none` both when the archive file is missing (`FileNotFoundError`) and
when the member is absent (`KeyError`). -/
def zipLookup (fs : FS) (archive : Str) (name : Str) : Option Str :=
  match fs archive with
  | some (FSNode.zipArchive ms) => ms.lookup name
  | _ => none

/-- One entry of the `[HISTORY]` table of the META file. -/
structure HistEntry where
  date : Str
  inserted : Nat
  deleted : Nat
deriving DecidableEq

/-- The `.CertFileDB-META.toml` contents (`[INFO]` and `[HISTORY]`).
Optional fields model keys that may be absent from the TOML table. -/
structure Meta where
  owner : Str
  description : Str
  created : Str
  number_of_certificates : Option Int
  last_commit : Option Str
  history : List (Str × HistEntry)
deriving DecidableEq

/-- State of a `CertFileDB` writer instance together with its storage
directory on disk.  `to_insert` and `to_delete` are the transaction
dictionaries (block id → set of certificate ids, sets kept as
insertion-ordered duplicate-free lists), `cache` the existence cache,
`meta` the parsed META file (absent if the file does not exist). -/
structure DB where
  storage : Str
  structure_level : Nat
  maintain_info : Bool
  to_insert : List (Str × List Str)
  to_delete : List (Str × List Str)
  cache : List Str
  fs : FS
  meta : Option Meta

/-- `CertFileDB._get_block_id`: first `structure_level + 1` characters of
the certificate id; for `structure_level = 0` the writer redefines it to
the constant `os.path.basename(storage)`. -/
def blockId (storage : Str) (level : Nat) (certId : Str) : Str :=
  if level = 0 then baseName storage else certId.take (level + 1)

/-- Directory part of `CertFileDB._get_block_path`: the slash-join of the
storage directory and the progressive prefixes of the id. -/
def blockDir (storage : Str) (level : Nat) (x : Str) : Str :=
  jn (['/']) (storage :: (List.range level).map (fun i => x.take (2 + i)))

/-- `CertFileDB._get_block_path`: the block directory with a trailing
slash. -/
def blockPath (storage : Str) (level : Nat) (x : Str) : Str :=
  blockDir storage level x ++ (['/'])

/-- `CertFileDB._get_block_archive`: `block_path + block_id + ".zip"`. -/
def blockArchive (storage : Str) (level : Nat) (x : Str) : Str :=
  blockPath storage level x ++ blockId storage level x ++ (".zip".data)

/-- `CertFileDB._is_in_transaction`:
`cert_id in trans_dict.get(block_id, {})`. -/
def inTransB (d : List (Str × List Str)) (k : Str) (c : Str) : Bool :=
  match d.lookup k with
  | some s => s.contains c
  | none => false

/-- Python `set.add` on an insertion-ordered duplicate-free list. -/
def setAdd (s : List Str) (c : Str) : List Str :=
  if s.contains c then s else s ++ [c]

/-- `CertFileDB._add_to_transaction`: add `c` to the set at key `k`,
creating the key if absent. -/
def dictAdd : List (Str × List Str) → Str → Str → List (Str × List Str)
  | [], k, c => [(k, [c])]
  | (k', s) :: rest, k, c =>
    if k' = k then (k', setAdd s c) :: rest else (k', s) :: dictAdd rest k c

/-- `CertFileDB._remove_from_transaction`: discard `c` from the set at key
`k` and delete the key when the set becomes empty. -/
def dictRemove : List (Str × List Str) → Str → Str → List (Str × List Str)
  | [], _, _ => []
  | (k', s) :: rest, k, c =>
    if k' = k then
      (if s.filter (fun x => x ≠ c) = [] then rest
       else (k', s.filter (fun x => x ≠ c)) :: rest)
    else (k', s) :: dictRemove rest k c

/-- `CertInvalidError` (raised on an empty id or certificate). -/
inductive CertErr where
  | certInvalid
deriving DecidableEq

/-- `CertFileDB.exists` (including the inherited
`CertFileDBReadOnly.exists` tail): transaction insert set → transaction
delete set → cache → block archive, caching a positive archive hit. -/
def DB.existsOp (db : DB) (certId : Str) : Bool × DB :=
  if inTransB db.to_insert (blockId db.storage db.structure_level certId) certId then
    (true, db)
  else if inTransB db.to_delete (blockId db.storage db.structure_level certId) certId then
    (false, db)
  else if db.cache.contains certId then
    (true, db)
  else
    match zipLookup db.fs (blockArchive db.storage db.structure_level certId) certId with
    | some _ => (true, { db with cache := db.cache ++ [certId] })
    | none => (false, db)

/-- `CertFileDB.exists_all` (inherited from `CertFileDBReadOnly`):
short-circuit conjunction over `exists`. -/
def DB.existsAll (db : DB) : List Str → Bool × DB
  | [] => (true, db)
  | certId :: rest =>
    let r := db.existsOp certId
    if r.1 then r.2.existsAll rest else (false, r.2)

/-- `CertFileDB.get`: pending insert reads the temporary file, pending
delete raises `CertNotAvailableError` (modelled as `none`), otherwise the
block archive is consulted; a failed archive lookup clears the cache when
the id was cached. -/
def DB.get (db : DB) (certId : Str) : Option Str × DB :=
  if inTransB db.to_insert (blockId db.storage db.structure_level certId) certId then
    (match db.fs (blockPath db.storage db.structure_level certId ++ certId) with
     | some (FSNode.file c) => (some c, db)
     | _ => (none, db))
  else if inTransB db.to_delete (blockId db.storage db.structure_level certId) certId then
    (none, db)
  else
    match zipLookup db.fs (blockArchive db.storage db.structure_level certId) certId with
    | some c => (some c, db)
    | none => (none, if db.cache.contains certId then { db with cache := [] } else db)

/-- `CertFileDB.insert`: reject empty id/content, write the temporary
file unless a file already exists at its path (first writer wins), then
record the id in `to_insert`. -/
def DB.insert (db : DB) (certId cert : Str) : Except CertErr DB :=
  if certId = [] ∨ cert = [] then Except.error CertErr.certInvalid
  else
    let certFile := blockPath db.storage db.structure_level certId ++ certId
    let fs' := match db.fs certFile with
      | some _ => db.fs
      | none => fsSet db.fs certFile (some (FSNode.file cert))
    Except.ok { db with
      fs := fs',
      to_insert := dictAdd db.to_insert (blockId db.storage db.structure_level certId) certId }

/-- `CertFileDB.delete`: reject an empty id; a pending insert is removed
from `to_insert` together with its temporary file, otherwise the id is
recorded in `to_delete`; in both cases the id is discarded from the
cache. -/
def DB.delete (db : DB) (certId : Str) : Except CertErr DB :=
  if certId = [] then Except.error CertErr.certInvalid
  else
    let bid := blockId db.storage db.structure_level certId
    let db' :=
      if inTransB db.to_insert bid certId then
        { db with
          to_insert := dictRemove db.to_insert bid certId,
          fs := fsSet db.fs (blockPath db.storage db.structure_level certId ++ certId) none }
      else
        { db with to_delete := dictAdd db.to_delete bid certId }
    Except.ok { db' with cache := db'.cache.filter (fun x => x ≠ certId) }

/-- `CertFileDB.rollback`: remove every pending temporary file and clear
both transaction dictionaries (directory pruning is not modelled). -/
def DB.rollback (db : DB) : DB :=
  { db with
    fs := db.to_insert.foldl
      (fun fs bc => bc.2.foldl
        (fun fs c => fsSet fs (blockPath db.storage db.structure_level bc.1 ++ c) none) fs)
      db.fs,
    to_insert := [], to_delete := [] }

/-- Net effect of `CertFileDB.delete_certs` on the archive node: members
whose stem is in the deletion set are dropped (and counted); if nothing
is left the archive file is removed, and an absent archive or an empty
deletion set leaves everything unchanged. -/
def dcRes (certs : List Str) (node : Option FSNode) : Nat × Option FSNode :=
  match node, certs with
  | some (FSNode.zipArchive ms), _ :: _ =>
    ((ms.filter (fun m => certs.contains (splitextStem m.1))).length,
     if (ms.filter (fun m => !(certs.contains (splitextStem m.1)))).isEmpty then none
     else some (FSNode.zipArchive (ms.filter (fun m => !(certs.contains (splitextStem m.1))))))
  | _, _ => (0, node)

/-- `CertFileDB.delete_certs` (static): rewrite one block archive through
a `_new` sibling and rename it over the original; the net effect touches
only the archive path. -/
def delete_certs (block_archive : Str) (certs : List Str) (fs : FS) : Nat × FS :=
  let r := dcRes certs (fs block_archive)
  (r.1, fsSet fs block_archive r.2)

/-- `CertFileDB.persist_certs` (static): append the block's pending
certificates to its archive (creating it when absent), skipping members
already persisted under the same name, and remove every temporary file.
The member list is read once (`zout.namelist()`), each written member
takes the temporary file's content, and ids are processed in set order. -/
def persist_certs (block_path block_archive : Str) (certs : List Str) (fs : FS) : Nat × FS :=
  if certs.isEmpty then (0, fs)
  else
    let node := fs block_archive
    let append := node.isSome
    let initMembers := match node with
      | some (FSNode.zipArchive ms) => ms
      | _ => []
    let persisted := initMembers.map Prod.fst
    let r := certs.foldl
      (fun (acc : Nat × List (Str × Str)) cert =>
        if append && persisted.contains cert then acc
        else (acc.1 + 1, acc.2 ++ [(cert, fileContent fs (block_path ++ cert))]))
      (0, initMembers)
    let fs1 := certs.foldl (fun f cert => fsSet f (block_path ++ cert) none) fs
    (r.1, fsSet fs1 block_archive (some (FSNode.zipArchive r.2)))

/-- One block of the deletion phase of `CertFileDB.commit`. -/
def deleteStep (db : DB) (acc : Nat × FS) (bc : Str × List Str) : Nat × FS :=
  let r := delete_certs (blockArchive db.storage db.structure_level bc.1) bc.2 acc.2
  (acc.1 + r.1, r.2)

/-- One block of the insertion phase of `CertFileDB.commit`. -/
def insertStep (db : DB) (acc : Nat × FS) (bc : Str × List Str) : Nat × FS :=
  let r := persist_certs (blockPath db.storage db.structure_level bc.1)
    (blockArchive db.storage db.structure_level bc.1) bc.2 acc.2
  (acc.1 + r.1, r.2)

/-- The two phases of `CertFileDB.commit` over explicitly given block
orders: all deletions first, then all insertions, counts summed.  The
sequential commit processes the dictionaries in order; `__commit_async`
runs the same per-block tasks of each phase on a worker pool (joining the
deletion phase before the insertion phase starts), which with disjoint
per-block footprints amounts to a permutation of each phase's order.
Returns ((inserted, deleted), final filesystem). -/
def commitCore (db : DB) (dels ins : List (Str × List Str)) : (Nat × Nat) × FS :=
  let d := dels.foldl (deleteStep db) (0, db.fs)
  let i := ins.foldl (insertStep db) (0, d.2)
  ((i.1, d.1), i.2)

/-- Decimal rendering of a natural number (Python `str`). -/
def natStr (n : Nat) : Str := (Nat.repr n).data

/-- The META table `CertFileDB.__write_commit_info` creates when the META
file is absent. -/
def freshMeta (now : Str) : Meta :=
  { owner := [], description := [], created := now,
    number_of_certificates := none, last_commit := none, history := [] }

/-- `CertFileDB.__write_commit_info`: update `number_of_certificates` and
`last_commit`, and append a `HISTORY` entry keyed by the next number. -/
def writeCommitInfo (now : Str) (inserted deleted : Nat) (db : DB) : DB :=
  let meta := db.meta.getD (freshMeta now)
  let total := meta.number_of_certificates.getD 0
  let m : Meta := { meta with
    number_of_certificates := some (total + (inserted : Int) - (deleted : Int)),
    last_commit := some now }
  { db with meta := some { m with
      history := m.history ++ [(natStr (m.history.length + 1),
        { date := now, inserted := inserted, deleted := deleted })] }}

/-- `CertFileDB.commit` on the sequential (`cpu_cores = 1`) path; `now`
stands for `datetime.now()`.  Returns ((inserted, deleted), new state). -/
def DB.commit (db : DB) (now : Str) : (Nat × Nat) × DB :=
  let r := commitCore db db.to_delete db.to_insert
  let db' := { db with fs := r.2, to_insert := [], to_delete := [] }
  (r.1, if db.maintain_info then writeCommitInfo now r.1.1 r.1.2 db' else db')

/-! Read-only store (`CertFileDBReadOnly`).  Same archive lookup logic,
no transaction state; note that the read-only class never redefines
`_get_block_id`, so the prefix rule applies at every structure level. -/

/-- State of a `CertFileDBReadOnly` instance. -/
structure RODB where
  storage : Str
  structure_level : Nat
  cache : List Str
  fs : FS

/-- `CertFileDBReadOnly._get_block_id`. -/
def roBlockId (level : Nat) (certId : Str) : Str := certId.take (level + 1)

/-- `CertFileDBReadOnly._get_block_archive`. -/
def roBlockArchive (ro : RODB) (certId : Str) : Str :=
  blockPath ro.storage ro.structure_level certId ++ roBlockId ro.structure_level certId
    ++ (".zip".data)

/-- `CertFileDBReadOnly.exists`: cache, then archive lookup with a
positive hit cached. -/
def RODB.existsOp (ro : RODB) (certId : Str) : Bool × RODB :=
  if ro.cache.contains certId then (true, ro)
  else
    match zipLookup ro.fs (roBlockArchive ro certId) certId with
    | some _ => (true, { ro with cache := ro.cache ++ [certId] })
    | none => (false, ro)

/-- `CertFileDBReadOnly.exists_all`. -/
def RODB.existsAll (ro : RODB) : List Str → Bool × RODB
  | [] => (true, ro)
  | certId :: rest =>
    let r := ro.existsOp certId
    if r.1 then r.2.existsAll rest else (false, r.2)

/-- A child registered in a composite store: a writable `CertFileDB` or a
read-only `CertFileDBReadOnly`. -/
inductive Child where
  | rw (db : DB)
  | ro (db : RODB)

/-- `exists` dispatched on a composite child. -/
def Child.existsOp : Child → Str → Bool × Child
  | Child.rw db, certId => let r := db.existsOp certId; (r.1, Child.rw r.2)
  | Child.ro db, certId => let r := db.existsOp certId; (r.1, Child.ro r.2)

/-- `CompositeCertDB(ReadOnly)` state: the registered children in
registration order. -/
structure Composite where
  children : List Child

/-- Inner loop of `CompositeCertDBReadOnly.exists_all`: ask each child in
order, breaking at the first positive answer. -/
def childrenExists : List Child → Str → Bool × List Child
  | [], _ => (false, [])
  | c :: rest, certId =>
    let r := c.existsOp certId
    if r.1 then (true, r.2 :: rest)
    else
      let r' := childrenExists rest certId
      (r'.1, r.2 :: r'.2)

/-- `CompositeCertDBReadOnly.exists_all`: every id must be found in some
child (for-else loop). -/
def Composite.existsAll (comp : Composite) : List Str → Bool × Composite
  | [] => (true, comp)
  | certId :: rest =>
    let r := childrenExists comp.children certId
    if r.1 then Composite.existsAll { children := r.2 } rest
    else (false, { children := r.2 })

/-! `CertFileDBReadOnly.setup` (modelled only in its argument checking:
the configuration-file existence test and the `isinstance(structure_level,
int)` test, in that order). -/

/-- The `structure_level` argument as passed from Python: an integer, or
a value of any other runtime type. -/
inductive SetupArg where
  | int (i : Int)
  | nonInt
deriving DecidableEq

/-- The two `ValueError`s `setup` can raise, by their messages. -/
inductive SetupError where
  | alreadyExists
  | invalidArgument
deriving DecidableEq

/-- `CertFileDBReadOnly.setup`: fail when a configuration file is already
present, then fail when `structure_level` is not an `int`; otherwise the
storage is created. -/
def setup (configExists : Bool) (structure_level : SetupArg) : Except SetupError Unit :=
  if configExists then Except.error SetupError.alreadyExists
  else
    match structure_level with
    | SetupArg.nonInt => Except.error SetupError.invalidArgument
    | SetupArg.int _ => Except.ok ()

/-! RapidUnifier (`cevast/dataset/unifiers/rapid.py`). -/

/-- Truthiness of the `last` variable in `RapidUnifier.parse_chains`
(`None` and the empty string are falsy). -/
def pyTruthy : Option Str → Bool
  | none => false
  | some s => s ≠ []

/-- Loop of `RapidUnifier.parse_chains` over the pre-split
`(host, sha)` records, carrying `last` and the chain built so far; a
record for `last` is emitted at every host boundary and once at the end
(with `last = none` iff the input was empty). -/
def parseChainsAux (last : Option Str) (chain : List Str) :
    List (Str × Str) → List (Option Str × List Str)
  | [] => [(last, chain)]
  | (curr, sha) :: rest =>
    if pyTruthy last ∧ last ≠ some curr then
      (last, chain) :: parseChainsAux (some curr) [sha] rest
    else
      parseChainsAux (some curr) (chain ++ [sha]) rest

/-- `RapidUnifier.parse_chains`. -/
def parseChains (records : List (Str × Str)) : List (Option Str × List Str) :=
  parseChainsAux none [] records

/-- Chunks of 64 characters (`textwrap.wrap(cert, width=64)` on
whitespace-free base64 input). -/
def chunks64 (s : Str) : List Str :=
  if s = [] then [] else s.take 64 :: chunks64 (s.drop 64)
termination_by s.length
decreasing_by
  rename_i h
  simp only [List.length_drop]
  have h0 : 0 < s.length := List.length_pos.mpr h
  omega

/-- `BASE64_to_PEM` from `cevast/utils/cert_utils.py`. -/
def BASE64_to_PEM (cert : Str) : Str :=
  ("-----BEGIN CERTIFICATE-----".data) ++ (['\n']) ++ jn (['\n']) (chunks64 cert)
    ++ (['\n']) ++ ("-----END CERTIFICATE-----".data)

/-- `RapidUnifier.store_certs`: insert each parsed certificate (converted
to PEM) into the store; a `CertInvalidError` aborts the run. -/
def storeCerts (db : DB) : List (Str × Str) → Except CertErr DB
  | [] => Except.ok db
  | (sha, cert) :: rest =>
    match db.insert sha (BASE64_to_PEM cert) with
    | Except.error e => Except.error e
    | Except.ok db' => storeCerts db' rest

/-- One output line of `RapidUnifier.store_chains`:
`host + ',' + ','.join(chain) + '\n'`. -/
def chainLine (host : Str) (chain : List Str) : Str :=
  host ++ (',' :: jn ([',']) chain) ++ (['\n'])

/-- Accumulated state of `RapidUnifier.store_chains`: the lines written
to the chain file and to the broken-chain file, the store (threaded
through `exists_all`), and the unification-log counters. -/
structure ChainsOut where
  full : List Str
  broken : List Str
  db : DB
  totalHosts : Nat
  totalHostCerts : Nat
  brokenChains : Int

/-- Body of `RapidUnifier.store_chains` for one parsed `(host, chain)`
record: bump the counters and route the line by `exists_all` when a
broken-chain file is configured. -/
def storeChainStep (brokenProvided : Bool) (st : ChainsOut) (hc : Option Str × List Str) :
    ChainsOut :=
  let host := hc.1.getD []
  let chain := hc.2
  let st := { st with
    totalHostCerts := st.totalHostCerts + chain.length,
    totalHosts := st.totalHosts + 1 }
  let line := chainLine host chain
  if brokenProvided then
    let r := st.db.existsAll chain
    if r.1 then { st with db := r.2, full := st.full ++ [line] }
    else { st with db := r.2, broken := st.broken ++ [line],
                   brokenChains := st.brokenChains + 1 }
  else { st with full := st.full ++ [line] }

/-- `RapidUnifier.store_chains` over the pre-split host records
(`brokenProvided` is whether a broken-chain file was configured). -/
def storeChains (db : DB) (brokenProvided : Bool) (records : List (Str × Str)) : ChainsOut :=
  (parseChains records).foldl (storeChainStep brokenProvided)
    { full := [], broken := [], db := db, totalHosts := 0, totalHostCerts := 0,
      brokenChains := if brokenProvided then 0 else -1 }

/-! Error dispatch of `RapidDatasetManager.__unify`
(`cevast/dataset/managers/rapid.py`, lines 137-155). -/

/-- Kinds of Python exceptions relevant to the unify stage.  Note that
`CertInvalidError` subclasses `ValueError`, so `valueerror` covers it. -/
inductive PyExc where
  | oserror
  | valueerror
  | other
deriving DecidableEq

/-- The handler around `store_certs`: `except (OSError, ValueError)`. -/
def certsExcCaught : PyExc → Bool
  | PyExc.oserror => true
  | PyExc.valueerror => true
  | PyExc.other => false

/-- The handler around `store_chains`: `except OSError`. -/
def hostsExcCaught : PyExc → Bool
  | PyExc.oserror => true
  | _ => false

/-- What `__unify` lets escape: the wrapper `DatasetUnificationError`
(spec kind `UnificationFailed`) or an uncaught Python exception. -/
inductive RaisedExc where
  | unificationFailed
  | py (e : PyExc)
deriving DecidableEq

/-- Observable effect of one `__unify` run on the store and the caller. -/
structure UnifyEffect where
  rollbackCalled : Bool
  commitCalled : Bool
  raised : Option RaisedExc
deriving DecidableEq

/-- `RapidDatasetManager.__unify` given the outcome of streaming the
certs dump and (if reached) the hosts dump: a caught certs failure rolls
the store back and raises `DatasetUnificationError`, a caught hosts
failure commits the store and raises `DatasetUnificationError`, anything
uncaught propagates with no store action. -/
def runUnify (certsOutcome hostsOutcome : Option PyExc) : UnifyEffect :=
  match certsOutcome with
  | some e =>
    if certsExcCaught e then
      { rollbackCalled := true, commitCalled := false,
        raised := some RaisedExc.unificationFailed }
    else
      { rollbackCalled := false, commitCalled := false, raised := some (RaisedExc.py e) }
  | none =>
    match hostsOutcome with
    | some e =>
      if hostsExcCaught e then
        { rollbackCalled := false, commitCalled := true,
          raised := some RaisedExc.unificationFailed }
      else
        { rollbackCalled := false, commitCalled := false, raised := some (RaisedExc.py e) }
    | none => { rollbackCalled := false, commitCalled := false, raised := none }

/-! ChainValidator (`cevast/analysis/chain_validator.py`). -/

/-- `make_PEM_filename` from `cevast/utils/cert_utils.py`. -/
def makePEMFilename (certId : Str) : Str := certId ++ (".pem".data)

/-- Python `str.rjust(w)` with space padding. -/
def rjust (s : Str) (w : Nat) : Str :=
  if w ≤ s.length then s else List.replicate (w - s.length) ' ' ++ s

/-- The export loop of `ChainValidator._validate`: for each chain id use
the already exported `<tmp>/<id>.pem` if present, otherwise export it
from the store (`existsAt` abstracts `os.path.exists`, `exportPath`
abstracts `CertDB.export` with `none` for `CertNotAvailableError`);
`none` models the early `return ""`. -/
def collectPems (existsAt : Str → Bool) (exportPath : Str → Option Str) (tmpDir : Str) :
    List Str → Option (List Str)
  | [] => some []
  | cert :: rest =>
    let path := tmpDir ++ makePEMFilename cert
    match if existsAt path then some path else exportPath cert with
    | none => none
    | some p => (collectPems existsAt exportPath tmpDir rest).map (fun ps => p :: ps)

/-- `ChainValidator._validate`: collect the PEM paths (empty result row
on a broken chain), run every configured method on them, and format
`"{}, {}, {}\n".format(host.rjust(15), ", ".join(result), ", ".join(chain))`. -/
def validate (existsAt : Str → Bool) (exportPath : Str → Option Str) (tmpDir : Str)
    (methods : List (List Str → Str)) (host : Str) (chain : List Str) : Str :=
  match collectPems existsAt exportPath tmpDir chain with
  | none => []
  | some pems =>
    rjust host 15 ++ (", ".data) ++ jn (", ".data) (methods.map (fun m => m pems))
      ++ (", ".data) ++ jn (", ".data) chain ++ (['\n'])

/-! Well-formedness of reachable `CertFileDB` states, and helper
predicates used in the theorem statements. -/

/-- A certificate id as the store actually sees them (hex fingerprints):
non-empty and free of the path-significant characters `/` and `.`. -/
@[reducible] def SafeId (s : Str) : Prop := s ≠ [] ∧ '/' ∉ s ∧ '.' ∉ s

/-- Whether a filesystem node is a plain file. -/
def isFileB : Option FSNode → Bool
  | some (FSNode.file _) => true
  | _ => false

/-- Whether a path may legally hold a block archive: a ZIP node or
nothing (a plain file there would make `ZipFile` raise `BadZipFile`,
which `CertFileDB` never catches). -/
def zipOrNoneB : Option FSNode → Bool
  | some (FSNode.file _) => false
  | _ => true

/-- Invariants of a `CertFileDB` state as maintained by the operations:
dictionary keys are unique; every transaction set is a non-empty
duplicate-free list of safe ids belonging to its block, pending inserts
have their temporary files on disk, and the affected block archive paths
hold ZIP archives or nothing. -/
structure Wf (db : DB) : Prop where
  insKeys : (db.to_insert.map Prod.fst).Nodup
  delKeys : (db.to_delete.map Prod.fst).Nodup
  insMem : ∀ p ∈ db.to_insert, p.2 ≠ [] ∧ p.2.Nodup ∧ ∀ c ∈ p.2,
    SafeId c ∧ blockId db.storage db.structure_level c = p.1 ∧
    isFileB (db.fs (blockPath db.storage db.structure_level p.1 ++ c)) = true
  delMem : ∀ p ∈ db.to_delete, p.2 ≠ [] ∧ p.2.Nodup ∧ ∀ c ∈ p.2,
    SafeId c ∧ blockId db.storage db.structure_level c = p.1
  insArch : ∀ p ∈ db.to_insert,
    zipOrNoneB (db.fs (blockArchive db.storage db.structure_level p.1)) = true
  delArch : ∀ p ∈ db.to_delete,
    zipOrNoneB (db.fs (blockArchive db.storage db.structure_level p.1)) = true

/-- Soundness of the existence cache: every cached id is really a member
of its block archive (the advisory-cache invariant of the spec). -/
def CacheSound (db : DB) : Prop :=
  ∀ c ∈ db.cache, (zipLookup db.fs (blockArchive db.storage db.structure_level c) c).isSome = true

/-- Two states that agree on everything an `exists` answer can depend on
(all fields except the cache and META). -/
def CoreEq (db0 db : DB) : Prop :=
  db.storage = db0.storage ∧ db.structure_level = db0.structure_level ∧
  db.to_insert = db0.to_insert ∧ db.to_delete = db0.to_delete ∧ db.fs = db0.fs

/-- A string that can occur as a key of a transaction dictionary: it is
its own block id and contains no slash. -/
def GoodKey (storage : Str) (level : Nat) (k : Str) : Prop :=
  blockId storage level k = k ∧ '/' ∉ k

/-- The id `x` is nowhere in the persisted store: its block archive
either does not exist or is a ZIP archive without a member named `x`. -/
@[reducible] def ArchFresh (db : DB) (x : Str) : Prop :=
  zipLookup db.fs (blockArchive db.storage db.structure_level x) x = none ∧
  zipOrNoneB (db.fs (blockArchive db.storage db.structure_level x)) = true

/-- State-independent reading of `exists`: pending insert, or neither
pending delete nor absent from the block archive.  Under `CacheSound`
this coincides with what `DB.existsOp` answers. -/
def semExistsB (db : DB) (certId : Str) : Bool :=
  inTransB db.to_insert (blockId db.storage db.structure_level certId) certId ||
  (!(inTransB db.to_delete (blockId db.storage db.structure_level certId) certId) &&
   (zipLookup db.fs (blockArchive db.storage db.structure_level certId) certId).isSome)

/-- Unwrap a successful store operation (used only to build the concrete
example states below; all the operations involved succeed). -/
def okD (r : Except CertErr DB) (dflt : DB) : DB :=
  match r with
  | Except.ok d => d
  | Except.error _ => dflt

/-- A freshly opened store at `/s` with `structure_level = 2` and
`maintain_info = False`. -/
def freshEx : DB :=
  { storage := "/s".data, structure_level := 2, maintain_info := false,
    to_insert := [], to_delete := [], cache := [], fs := emptyFS, meta := none }

/-- A store whose block archive for `aabb` already holds a persisted
member `aabb` (content `OLD`) and nothing else. -/
def c4db : DB :=
  { freshEx with fs := (fsSet emptyFS (blockArchive ("/s".data) 2 ("aabb".data))
      (some (FSNode.zipArchive [(("aabb".data), ("OLD".data))]))) }

/-- The store of `c4db` after `insert("aabb","NEW"); delete("aabb");
commit()`. -/
def c4final : DB :=
  ((okD ((okD (c4db.insert ("aabb".data) ("NEW".data)) c4db).delete ("aabb".data))
    c4db).commit ("t2".data)).2

/-- `insert("aabb", "B1")` on the fresh store (for the round-trip law). -/
def c1ins : DB := okD (freshEx.insert ("aabb".data) ("B1".data)) freshEx

/-- The store of `c4db` after `insert("aabb","NEW")` (the id is already
persisted with content `OLD`). -/
def c1stale : DB := okD (c4db.insert ("aabb".data) ("NEW".data)) c4db

/-- … then `commit()`. -/
def c1staleC : DB := (c1stale.commit ("t3".data)).2

/-- `insert("aabb", "C1")` on the fresh store. -/
def c5a : DB := okD (freshEx.insert ("aabb".data) ("C1".data)) freshEx

/-- `delete("aabb")` right after the uncommitted `insert("aabb","C1")`. -/
def c5adel : DB := okD (c5a.delete ("aabb".data)) freshEx

/-- … then `commit()`. -/
def c5b : DB := (c5a.commit ("t1".data)).2

/-- … then `delete("aabb")` (the id is now persisted, so it goes to
`to_delete`). -/
def c5c : DB := okD (c5b.delete ("aabb".data)) freshEx

/-- … then `insert("aabb", "C2")` again. -/
def c5db : DB := okD (c5c.insert ("aabb".data) ("C2".data)) freshEx

/-- The store after streaming the one-certificate certs dump
`A,Zm9v` (`RapidUnifier.store_certs` on the fresh store). -/
def c2dbIn : DB := okD (storeCerts freshEx [(("A".data), ("Zm9v".data))]) freshEx

/-- The hosts dump `h1,A` / `h2,A` / `h2,B`, pre-split into records. -/
def c2records : List (Str × Str) :=
  [(("h1".data), ("A".data)), (("h2".data), ("A".data)), (("h2".data), ("B".data))]

/-- A store (level 1) with a non-trivial open transaction: two blocks
pending insertion (temporary files on disk) and one block pending
deletion whose archive holds one doomed and one surviving member. -/
def c3db : DB :=
  { storage := "/s".data, structure_level := 1, maintain_info := false,
    to_insert := [(("aa".data), [("aa1".data), ("aa2".data)]), (("bb".data), [("bb1".data)])],
    to_delete := [(("cc".data), [("cc1".data)])],
    cache := [], meta := none,
    fs := fsSet (fsSet (fsSet (fsSet emptyFS
      ("/s/aa/aa1".data) (some (FSNode.file ("A1".data))))
      ("/s/aa/aa2".data) (some (FSNode.file ("A2".data))))
      ("/s/bb/bb1".data) (some (FSNode.file ("B1".data))))
      ("/s/cc/cc.zip".data)
      (some (FSNode.zipArchive [(("cc1".data), ("X".data)), (("cc9".data), ("Y".data))])) }

/-- A store with `maintain_info = True`, an existing META file with one
HISTORY entry, a persisted archive, and an empty transaction. -/
def c10db : DB :=
  { storage := "/s".data, structure_level := 2, maintain_info := true,
    to_insert := [], to_delete := [], cache := [("aabb".data)],
    fs := fsSet emptyFS (blockArchive ("/s".data) 2 ("aabb".data))
      (some (FSNode.zipArchive [(("aabb".data), ("V".data))])),
    meta := some
      { owner := ("o".data), description := ("d".data), created := ("t0".data),
        number_of_certificates := some 1, last_commit := some ("t0".data),
        history := [((natStr 1), { date := ("t0".data), inserted := 1, deleted := 0 })] } }

/-- Member list of an archive node (`[]` for a missing or non-ZIP node;
`persist_certs` starts from it when appending). -/
def archMembers : Option FSNode → List (Str × Str)
  | some (FSNode.zipArchive ms) => ms
  | _ => []

/-- Member names of an archive node (`zout.namelist()`). -/
def archNames (node : Option FSNode) : List Str := (archMembers node).map Prod.fst

/-! Generic helper lemmas about association lists. -/

theorem lookup_cons_self {β : Type} (k : Str) (v : β) (rest : List (Str × β)) :
    ((k, v) :: rest).lookup k = some v := by
  simp [List.lookup]

theorem lookup_cons_ne {β : Type} {x k : Str} (v : β) (rest : List (Str × β))
    (h : x ≠ k) : ((k, v) :: rest).lookup x = rest.lookup x := by
  have hb : (x == k) = false := beq_eq_false_iff_ne.mpr h
  simp [List.lookup, hb]

theorem lookup_none_iff {β : Type} {l : List (Str × β)} {x : Str} :
    l.lookup x = none ↔ ∀ p ∈ l, p.1 ≠ x := by
  induction l with
  | nil => simp [List.lookup]
  | cons p rest ih =>
    obtain ⟨k, v⟩ := p
    by_cases hk : x = k
    · subst hk
      rw [lookup_cons_self]
      constructor
      · intro h; cases h
      · intro h
        exact absurd rfl (h (x, v) (List.mem_cons_self _ _))
    · rw [lookup_cons_ne v rest hk]
      constructor
      · intro h p hp
        rcases List.mem_cons.mp hp with rfl | hp
        · exact Ne.symm hk
        · exact (ih.mp h) p hp
      · intro h
        exact ih.mpr (fun p hp => h p (List.mem_cons_of_mem _ hp))

theorem lookup_append_none {β : Type} {l1 l2 : List (Str × β)} {x : Str}
    (h : l1.lookup x = none) : (l1 ++ l2).lookup x = l2.lookup x := by
  induction l1 with
  | nil => simp
  | cons p rest ih =>
    obtain ⟨k, v⟩ := p
    by_cases hk : x = k
    · subst hk
      rw [lookup_cons_self] at h
      cases h
    · rw [lookup_cons_ne v rest hk] at h
      rw [List.cons_append, lookup_cons_ne v (rest ++ l2) hk]
      exact ih h

theorem lookup_graph {α : Type} {f : Str → α} {l : List Str} {x : Str} (h : x ∈ l) :
    (l.map (fun c => (c, f c))).lookup x = some (f x) := by
  induction l with
  | nil => cases h
  | cons c rest ih =>
    by_cases hc : x = c
    · subst hc
      simp only [List.map_cons]
      exact lookup_cons_self _ _ _
    · have hx : x ∈ rest := by
        cases h with
        | head => exact absurd rfl hc
        | tail _ h => exact h
      simp only [List.map_cons]
      rw [lookup_cons_ne _ _ hc]
      exact ih hx

theorem lookup_map_graph_none {α : Type} {f : Str → α} {l : List Str} {x : Str} (h : x ∉ l) :
    (l.map (fun c => (c, f c))).lookup x = none := by
  rw [lookup_none_iff]
  intro p hp
  obtain ⟨c, hc, rfl⟩ := List.mem_map.mp hp
  exact fun he => h (he ▸ hc)

theorem filter_ne_not_contains (l : List Str) (x : Str) :
    (l.filter (fun y => y ≠ x)).contains x = false := by
  rw [List.contains_eq_any_beq, List.any_eq_false]
  intro y hy
  have hmem := List.mem_filter.mp hy
  have hne : y ≠ x := by simpa using hmem.2
  simp only [beq_iff_eq]
  exact Ne.symm hne

/-! Path-level lemmas: the block layout writes every object either at
`block_dir ++ "/" ++ <slash-free id>` or at
`block_dir ++ "/" ++ <slash-free block id> ++ ".zip"`, so last path
components identify each other. -/

theorem mem_takeWhile_pred {p : Char → Bool} {l : Str} {a : Char}
    (h : a ∈ l.takeWhile p) : p a = true := by
  induction l with
  | nil => cases h
  | cons c rest ih =>
    by_cases hc : p c
    · rw [List.takeWhile_cons_of_pos hc] at h
      cases h with
      | head => exact hc
      | tail _ h => exact ih h
    · rw [List.takeWhile_cons_of_neg hc] at h
      cases h

theorem baseName_no_slash (p : Str) : '/' ∉ baseName p := by
  intro h
  have h1 : '/' ∈ p.reverse.takeWhile (fun c => c ≠ '/') := List.mem_reverse.mp h
  have := mem_takeWhile_pred h1
  simp at this

theorem blockId_no_slash (storage : Str) (level : Nat) {c : Str} (hc : '/' ∉ c) :
    '/' ∉ blockId storage level c := by
  unfold blockId
  split
  · exact baseName_no_slash storage
  · exact fun h => hc (List.mem_of_mem_take h)

theorem blockId_idem (storage : Str) (level : Nat) (c : Str) :
    blockId storage level (blockId storage level c) = blockId storage level c := by
  unfold blockId
  split
  · rfl
  · simp [List.take_take]

theorem goodKey_of_blockId (storage : Str) (level : Nat) {c k : Str} (hc : '/' ∉ c)
    (hk : blockId storage level c = k) : GoodKey storage level k := by
  subst hk
  exact ⟨blockId_idem storage level c, blockId_no_slash storage level hc⟩

theorem jn_append_last (sep : Str) (xs : List Str) (y : Str) (h : xs ≠ []) :
    jn sep (xs ++ [y]) = jn sep xs ++ sep ++ y := by
  induction xs with
  | nil => exact absurd rfl h
  | cons a as ih =>
    cases as with
    | nil => simp [jn]
    | cons b bs =>
      have : jn sep ((a :: b :: bs) ++ [y]) = a ++ sep ++ jn sep ((b :: bs) ++ [y]) := by
        simp [jn]
      rw [this, ih (by simp)]
      simp [jn, List.append_assoc]

theorem slash_append_inj {a b x y : Str} (hx : '/' ∉ x) (hy : '/' ∉ y)
    (h : a ++ '/' :: x = b ++ '/' :: y) : a = b ∧ x = y := by
  rcases List.append_eq_append_iff.mp h with ⟨t, hb, hxy⟩ | ⟨t, ha, hxy⟩
  · cases t with
    | nil => simp at hb hxy; exact ⟨hb.symm, hxy⟩
    | cons c t' =>
      exfalso
      have hc : '/' :: x = c :: (t' ++ '/' :: y) := by simpa using hxy
      have hx' : x = t' ++ '/' :: y := (List.cons.injEq _ _ _ _ ▸ hc).2
      exact hx (hx' ▸ List.mem_append_right t' (List.mem_cons_self _ _))
  · cases t with
    | nil => simp at ha hxy; exact ⟨ha, hxy.symm⟩
    | cons c t' =>
      exfalso
      have hc : '/' :: y = c :: (t' ++ '/' :: x) := by simpa using hxy
      have hy' : y = t' ++ '/' :: x := (List.cons.injEq _ _ _ _ ▸ hc).2
      exact hy (hy' ▸ List.mem_append_right t' (List.mem_cons_self _ _))

theorem blockPath_append (storage : Str) (level : Nat) (x c : Str) :
    blockPath storage level x ++ c = blockDir storage level x ++ '/' :: c := by
  simp [blockPath, List.append_assoc]

theorem blockArchive_shape (storage : Str) (level : Nat) (x : Str) :
    blockArchive storage level x =
      blockDir storage level x ++ '/' :: (blockId storage level x ++ (".zip".data)) := by
  simp [blockArchive, blockPath, List.append_assoc]

theorem temp_ne_archive (storage : Str) (level : Nat) {k1 c k2 : Str}
    (hc : SafeId c) (hk2 : '/' ∉ k2) :
    blockPath storage level k1 ++ c ≠ blockArchive storage level k2 := by
  intro h
  rw [blockPath_append, blockArchive_shape] at h
  have hz : '/' ∉ blockId storage level k2 ++ (".zip".data) := by
    intro hm
    rcases List.mem_append.mp hm with hm | hm
    · exact blockId_no_slash storage level hk2 hm
    · simp at hm
  obtain ⟨-, h2⟩ := slash_append_inj hc.2.1 hz h
  have : '.' ∈ c := h2 ▸ List.mem_append_right _ (by simp)
  exact hc.2.2 this

theorem archive_inj (storage : Str) (level : Nat) {k1 k2 : Str}
    (h1 : GoodKey storage level k1) (h2 : GoodKey storage level k2) (hne : k1 ≠ k2) :
    blockArchive storage level k1 ≠ blockArchive storage level k2 := by
  intro h
  rw [blockArchive_shape, blockArchive_shape, h1.1, h2.1] at h
  have hz1 : '/' ∉ k1 ++ (".zip".data) := by
    intro hm
    rcases List.mem_append.mp hm with hm | hm
    · exact h1.2 hm
    · simp at hm
  have hz2 : '/' ∉ k2 ++ (".zip".data) := by
    intro hm
    rcases List.mem_append.mp hm with hm | hm
    · exact h2.2 hm
    · simp at hm
  obtain ⟨-, ht⟩ := slash_append_inj hz1 hz2 h
  exact hne (List.append_cancel_right ht)

theorem blockDir_split (storage : Str) (L : Nat) {k : Str}
    (hk : GoodKey storage (L + 1) k) :
    blockDir storage (L + 1) k =
      jn (['/']) (storage :: (List.range L).map (fun i => k.take (2 + i))) ++ '/' :: k := by
  unfold blockDir
  have hr : List.range (L + 1) = List.range L ++ [L] := List.range_succ L
  rw [hr, List.map_append]
  have hk2 : k.take (2 + L) = k := by
    have := hk.1
    unfold blockId at this
    simp only [Nat.succ_ne_zero, if_neg (Nat.succ_ne_zero L)] at this
    have harith : L + 1 + 1 = 2 + L := by omega
    rw [harith] at this
    exact this
  have : storage :: ((List.range L).map (fun i => k.take (2 + i)) ++ [k.take (2 + L)]) =
      (storage :: (List.range L).map (fun i => k.take (2 + i))) ++ [k] := by
    simp [hk2]
  rw [List.map_singleton, this, jn_append_last _ _ _ (by simp)]
  simp [List.append_assoc]

theorem blockDir_inj (storage : Str) (level : Nat) {k1 k2 : Str}
    (h1 : GoodKey storage level k1) (h2 : GoodKey storage level k2)
    (hd : blockDir storage level k1 = blockDir storage level k2) : k1 = k2 := by
  cases level with
  | zero =>
    have e1 := h1.1
    have e2 := h2.1
    unfold blockId at e1 e2
    simp at e1 e2
    rw [← e1, ← e2]
  | succ L =>
    rw [blockDir_split storage L h1, blockDir_split storage L h2] at hd
    exact (slash_append_inj h1.2 h2.2 hd).2

theorem blockPath_blockId (storage : Str) (level : Nat) (c : Str) :
    blockPath storage level (blockId storage level c) = blockPath storage level c := by
  unfold blockPath blockDir
  congr 2
  congr 1
  apply List.map_congr_left
  intro i hi
  have hi' : i < level := List.mem_range.mp hi
  unfold blockId
  split
  · omega
  · rw [List.take_take]
    congr 1
    omega

theorem blockArchive_blockId (storage : Str) (level : Nat) (c : Str) :
    blockArchive storage level (blockId storage level c) = blockArchive storage level c := by
  unfold blockArchive
  rw [blockPath_blockId, blockId_idem]

/-! Claim C9. -/

/-- C9: on every store — read-only, writable, and composite (also with
zero registered children) — `exists_all` applied to the empty id list
returns `true` and returns the state unchanged, touching neither the
cache nor the filesystem. -/
theorem existsAll_nil_true (ro : RODB) (db : DB) (comp : Composite) :
    ro.existsAll [] = (true, ro) ∧ db.existsAll [] = (true, db) ∧
    comp.existsAll [] = (true, comp) :=
  ⟨rfl, rfl, rfl⟩

/-! Claim C8. -/

/-- C8 counterexample: `setup` accepts the negative integer
`structure_level = -1` without any error (only `isinstance(…, int)` is
checked), refuting that it fails for every non-natural value. -/
theorem setup_negative_level_ok :
    setup false (SetupArg.int (-1)) = Except.ok () ∧ (-1 : Int) < 0 :=
  ⟨rfl, by decide⟩

/-- C8 amended: `setup` fails with the `AlreadyExists`-kind error exactly
when a configuration file is present (that check comes first), and with
the `InvalidArgument`-kind error exactly when no configuration file is
present and `structure_level` is not an `int` — negative integers are
accepted. -/
theorem setup_error_spec (configExists : Bool) (sl : SetupArg) :
    (setup configExists sl = Except.error SetupError.alreadyExists ↔ configExists = true) ∧
    (setup configExists sl = Except.error SetupError.invalidArgument ↔
      configExists = false ∧ sl = SetupArg.nonInt) := by
  cases configExists <;> cases sl <;> simp [setup]

/-! Claim C6. -/

/-- C6 counterexample: a `ValueError` while streaming the hosts dump (for
example a line with three comma-separated fields, which makes the tuple
unpacking in `parse_chains` fail) is not caught by the `except OSError`
handler of `__unify`: the store's `commit` is not called and the
exception propagates instead of `UnificationFailed`. -/
theorem unify_hosts_valueerror_uncaught :
    runUnify none (some PyExc.valueerror) =
      { rollbackCalled := false, commitCalled := false,
        raised := some (RaisedExc.py PyExc.valueerror) } ∧
    some (RaisedExc.py PyExc.valueerror) ≠ some RaisedExc.unificationFailed :=
  ⟨rfl, by decide⟩

/-- C6 amended: an `OSError` or `ValueError` while streaming the certs
dump makes `__unify` roll the store back and raise `UnificationFailed`;
an `OSError` while streaming the hosts dump makes it commit the store
and raise `UnificationFailed`; any other exception propagates unchanged
with no store action. -/
theorem runUnify_spec (ce he : PyExc) (ho : Option PyExc) :
    (runUnify (some ce) ho =
      if certsExcCaught ce then
        { rollbackCalled := true, commitCalled := false,
          raised := some RaisedExc.unificationFailed }
      else
        { rollbackCalled := false, commitCalled := false,
          raised := some (RaisedExc.py ce) }) ∧
    (runUnify none (some he) =
      if hostsExcCaught he then
        { rollbackCalled := false, commitCalled := true,
          raised := some RaisedExc.unificationFailed }
      else
        { rollbackCalled := false, commitCalled := false,
          raised := some (RaisedExc.py he) }) ∧
    runUnify none none =
      { rollbackCalled := false, commitCalled := false, raised := none } := by
  cases ce <;> cases he <;>
    simp [runUnify, certsExcCaught, hostsExcCaught]

/-! Claim C7. -/

/-- C7 counterexample: for host `h`, chain `[A, B]` and a single method
returning `0`, `_validate` joins the chain ids with `", "` (after
right-justifying the host to width 15), so the emitted row is
`…h, 0, A, B` and not the claimed `…h, 0, A -> B`. -/
theorem validate_chain_comma_joined :
    validate (fun _ => true) (fun _ => none) [] [fun _ => ("0".data)]
        ("h".data) [("A".data), ("B".data)] = ("              h, 0, A, B\n".data) ∧
    ("              h, 0, A, B\n".data) ≠ ("              h, 0, A -> B\n".data) :=
  ⟨rfl, by decide⟩

/-- C7 amended: for every host whose chain `[A, B]` is fully available in
the export directory and a single configured method returning `0`, the
emitted CSV row is `host.rjust(15) + ", 0, A, B\n"` — the chain ids are
joined with `", "`, not `" -> "`. -/
theorem validate_row_shape (existsAt : Str → Bool) (exportPath : Str → Option Str)
    (tmpDir : Str) (host : Str)
    (hA : existsAt (tmpDir ++ makePEMFilename ("A".data)) = true)
    (hB : existsAt (tmpDir ++ makePEMFilename ("B".data)) = true) :
    validate existsAt exportPath tmpDir [fun _ => ("0".data)] host
        [("A".data), ("B".data)] = rjust host 15 ++ (", 0, A, B\n".data) := by
  have hc : collectPems existsAt exportPath tmpDir [("A".data), ("B".data)] =
      some [tmpDir ++ makePEMFilename ("A".data), tmpDir ++ makePEMFilename ("B".data)] := by
    simp [collectPems, hA, hB]
  unfold validate
  rw [hc]
  simp only [List.map_cons, List.map_nil, jn, List.append_assoc]
  congr 1

/-- C7 amended, witness at a concrete host and export state. -/
theorem validate_row_shape_witness :
    validate (fun _ => true) (fun _ => none) [] [fun _ => ("0".data)] ("h".data)
        [("A".data), ("B".data)] = rjust ("h".data) 15 ++ (", 0, A, B\n".data) :=
  validate_row_shape (fun _ => true) (fun _ => none) [] ("h".data) rfl rfl

/-! Claim C5. -/

/-- C5 counterexample: after `insert("aabb","C1"); commit();
delete("aabb"); insert("aabb","C2")` on a fresh store, the id `aabb` is
simultaneously in `to_insert` and in `to_delete` of its block — `insert`
never removes a pending deletion. -/
theorem insert_while_pending_delete_in_both :
    inTransB c5db.to_insert (blockId c5db.storage c5db.structure_level ("aabb".data))
      ("aabb".data) = true ∧
    inTransB c5db.to_delete (blockId c5db.storage c5db.structure_level ("aabb".data))
      ("aabb".data) = true :=
  ⟨rfl, rfl⟩

/-- Helper: after `_remove_from_transaction`, the removed id is no longer
in the set of its key (keys assumed unique, as in a Python dict). -/
theorem dictRemove_not_mem (d : List (Str × List Str)) (k c : Str)
    (hk : (d.map Prod.fst).Nodup) : inTransB (dictRemove d k c) k c = false := by
  induction d with
  | nil => rfl
  | cons p rest ih =>
    obtain ⟨k', s⟩ := p
    simp only [List.map_cons, List.nodup_cons] at hk
    by_cases he : k' = k
    · subst he
      have hlk : rest.lookup k' = none := by
        rw [lookup_none_iff]
        intro p hp h
        exact hk.1 (h ▸ List.mem_map_of_mem Prod.fst hp)
      have e1 : dictRemove ((k', s) :: rest) k' c =
          if s.filter (fun x => x ≠ c) = [] then rest
          else (k', s.filter (fun x => x ≠ c)) :: rest := by
        simp [dictRemove]
      rw [e1]
      by_cases hflt : s.filter (fun x => x ≠ c) = []
      · rw [if_pos hflt, inTransB, hlk]
      · rw [if_neg hflt, inTransB, lookup_cons_self]
        exact filter_ne_not_contains s c
    · simp only [dictRemove, if_neg he]
      unfold inTransB
      rw [lookup_cons_ne _ _ (fun h => he h.symm)]
      exact ih hk.2

/-- C5 amended: `delete` never leaves the deleted id in both transaction
sets: a pending insert is cancelled (removed from `to_insert` and the
filesystem in one step) without entering `to_delete`, and an id that was
not pending was not in `to_insert` to begin with.  (The invariant fails
only in the other direction: `insert` of an id pending deletion puts it
in both sets until commit, as the counterexample shows.) -/
theorem delete_leaves_no_overlap (db db' : DB) (x : Str)
    (hkeys : (db.to_insert.map Prod.fst).Nodup)
    (hdel : db.delete x = Except.ok db') :
    ¬(inTransB db'.to_insert (blockId db'.storage db'.structure_level x) x = true ∧
      inTransB db'.to_delete (blockId db'.storage db'.structure_level x) x = true) := by
  by_cases hx : x = []
  · rw [DB.delete, if_pos hx] at hdel
    cases hdel
  · rw [DB.delete, if_neg hx] at hdel
    by_cases hb : inTransB db.to_insert (blockId db.storage db.structure_level x) x
    · simp only [hb, if_pos] at hdel
      obtain rfl := (Except.ok.injEq _ _).mp hdel
      intro h
      have := h.1
      simp only [] at this
      rw [dictRemove_not_mem db.to_insert _ x hkeys] at this
      cases this
    · simp only [hb, if_neg, Bool.false_eq_true, not_false_eq_true] at hdel
      obtain rfl := (Except.ok.injEq _ _).mp hdel
      intro h
      have := h.1
      simp only [] at this
      rw [this] at hb
      exact hb rfl

/-- C5 amended, witness: deleting the pending insert `aabb` leaves no
overlap between the transaction sets. -/
theorem delete_leaves_no_overlap_witness :
    ¬(inTransB c5adel.to_insert (blockId c5adel.storage c5adel.structure_level ("aabb".data))
        ("aabb".data) = true ∧
      inTransB c5adel.to_delete (blockId c5adel.storage c5adel.structure_level ("aabb".data))
        ("aabb".data) = true) :=
  delete_leaves_no_overlap c5a c5adel ("aabb".data) (by decide) rfl

/-! Claim C4, counterexample part. -/

/-- C4 counterexample: on a store where `aabb` is already persisted (the
block archive holds member `aabb` with content `OLD`), the sequence
`insert("aabb","NEW"); delete("aabb"); commit()` leaves
`exists("aabb") = true`: `delete` only cancels the uncommitted insert and
never schedules the persisted copy for deletion. -/
theorem persisted_survives_insert_delete_commit :
    (c4final.existsOp ("aabb".data)).1 = true ∧
    zipLookup c4db.fs (blockArchive c4db.storage c4db.structure_level ("aabb".data))
      ("aabb".data) = some ("OLD".data) :=
  ⟨rfl, rfl⟩

/-! Claim C10. -/

/-- C10: committing an empty transaction returns `(0, 0)` and leaves the
whole block tree (every archive) unchanged; when `maintain_info` is
enabled it still appends a numbered HISTORY entry with `inserted = 0`,
`deleted = 0` and sets `last_commit`, and when it is disabled the state
is unchanged apart from the (already empty) transaction dictionaries. -/
theorem commit_empty_transaction (db : DB) (now : Str)
    (hi : db.to_insert = []) (hd : db.to_delete = []) :
    (db.commit now).1 = (0, 0) ∧
    ((db.commit now).2).fs = db.fs ∧
    (db.maintain_info = true →
      ((db.commit now).2).meta = some
        { (db.meta.getD (freshMeta now)) with
          number_of_certificates :=
            some ((db.meta.getD (freshMeta now)).number_of_certificates.getD 0),
          last_commit := some now,
          history := (db.meta.getD (freshMeta now)).history ++
            [(natStr ((db.meta.getD (freshMeta now)).history.length + 1),
              { date := now, inserted := 0, deleted := 0 })] }) ∧
    (db.maintain_info = false →
      (db.commit now).2 = { db with to_insert := [], to_delete := [] }) := by
  have hcore : commitCore db db.to_delete db.to_insert = ((0, 0), db.fs) := by
    rw [hi, hd]
    rfl
  simp only [DB.commit, hcore]
  refine ⟨trivial, ?_, ?_, ?_⟩
  · cases hm : db.maintain_info
    · simp [hm]
    · simp [hm, writeCommitInfo]
  · intro hm
    simp [hm, writeCommitInfo]
  · intro hm
    simp [hm]

/-! Claim C2. -/

theorem contains_iff_mem {l : List Str} {x : Str} : l.contains x = true ↔ x ∈ l := by
  simp [List.contains_eq_any_beq, List.any_eq_true, beq_iff_eq]

/-- Under a sound cache, `exists` answers the state-independent
predicate `semExistsB`, changes nothing but the cache, and keeps the
cache sound. -/
theorem existsOp_spec (db : DB) (certId : Str) (h : CacheSound db) :
    (db.existsOp certId).1 = semExistsB db certId ∧
    CoreEq db (db.existsOp certId).2 ∧ CacheSound (db.existsOp certId).2 := by
  unfold DB.existsOp semExistsB
  by_cases h1 : inTransB db.to_insert (blockId db.storage db.structure_level certId) certId
  · simp only [h1, if_pos]
    exact ⟨by simp [h1], ⟨rfl, rfl, rfl, rfl, rfl⟩, h⟩
  · by_cases h2 : inTransB db.to_delete (blockId db.storage db.structure_level certId) certId
    · simp only [h1, h2]
      simp only [Bool.false_eq_true, if_false, if_pos]
      exact ⟨by simp [h1, h2], ⟨rfl, rfl, rfl, rfl, rfl⟩, h⟩
    · by_cases h3 : db.cache.contains certId
      · have hs := h certId (contains_iff_mem.mp h3)
        simp only [h1, h2, h3]
        simp only [Bool.false_eq_true, if_false, if_pos]
        exact ⟨by simp [h1, h2, hs], ⟨rfl, rfl, rfl, rfl, rfl⟩, h⟩
      · cases hz : zipLookup db.fs (blockArchive db.storage db.structure_level certId) certId with
        | some v =>
          simp only [h1, h2, h3, hz]
          simp only [Bool.false_eq_true, if_false]
          refine ⟨by simp [h1, h2, hz], ⟨rfl, rfl, rfl, rfl, rfl⟩, ?_⟩
          intro c hcm
          rcases List.mem_append.mp hcm with hcm | hcm
          · exact h c hcm
          · simp at hcm
            subst hcm
            simp [hz]
        | none =>
          simp only [h1, h2, h3, hz]
          simp only [Bool.false_eq_true, if_false]
          exact ⟨by simp [h1, h2, hz], ⟨rfl, rfl, rfl, rfl, rfl⟩, h⟩

theorem coreEq_trans {db0 db1 db2 : DB} (h1 : CoreEq db0 db1) (h2 : CoreEq db1 db2) :
    CoreEq db0 db2 := by
  obtain ⟨a1, a2, a3, a4, a5⟩ := h1
  obtain ⟨b1, b2, b3, b4, b5⟩ := h2
  exact ⟨b1.trans a1, b2.trans a2, b3.trans a3, b4.trans a4, b5.trans a5⟩

theorem semExistsB_coreEq {db0 db : DB} (hc : CoreEq db0 db) (certId : Str) :
    semExistsB db certId = semExistsB db0 certId := by
  obtain ⟨a1, a2, a3, a4, a5⟩ := hc
  unfold semExistsB
  rw [a1, a2, a3, a4, a5]

/-- Under a sound cache, `exists_all` is the conjunction of the
state-independent `semExistsB` over the queried ids. -/
theorem existsAll_spec (ids : List Str) (db0 : DB) :
    ∀ db : DB, CacheSound db → CoreEq db0 db →
    (db.existsAll ids).1 = ids.all (semExistsB db0) ∧
    CoreEq db0 (db.existsAll ids).2 ∧ CacheSound (db.existsAll ids).2 := by
  induction ids with
  | nil =>
    intro db h hc
    exact ⟨rfl, hc, h⟩
  | cons certId rest ih =>
    intro db h hc
    have he := existsOp_spec db certId h
    have hsem : semExistsB db certId = semExistsB db0 certId := semExistsB_coreEq hc certId
    have hc' : CoreEq db0 (db.existsOp certId).2 := coreEq_trans hc he.2.1
    cases hb : (db.existsOp certId).1 with
    | false =>
      have hs : semExistsB db0 certId = false := by rw [← hsem, ← he.1, hb]
      simp only [DB.existsAll, hb, Bool.false_eq_true, if_false, List.all_cons, hs,
        Bool.false_and]
      exact ⟨trivial, hc', he.2.2⟩
    | true =>
      have hs : semExistsB db0 certId = true := by rw [← hsem, ← he.1, hb]
      simp only [DB.existsAll, hb, if_pos, List.all_cons, hs, Bool.true_and]
      exact ih (db.existsOp certId).2 he.2.2 hc'

/-- The fold of `store_chains` routes every parsed record by the
state-independent meaning of `exists_all` on the initial store. -/
theorem storeChains_fold (db0 : DB) (l : List (Option Str × List Str)) :
    ∀ st : ChainsOut, CacheSound st.db → CoreEq db0 st.db →
    ((l.foldl (storeChainStep true) st).full =
      st.full ++ (l.filter (fun hc => hc.2.all (semExistsB db0))).map
        (fun hc => chainLine (hc.1.getD []) hc.2)) ∧
    ((l.foldl (storeChainStep true) st).broken =
      st.broken ++ (l.filter (fun hc => !(hc.2.all (semExistsB db0)))).map
        (fun hc => chainLine (hc.1.getD []) hc.2)) := by
  induction l with
  | nil =>
    intro st h hc
    simp
  | cons hcr rest ih =>
    intro st h hc
    have he := existsAll_spec hcr.2 db0 st.db h hc
    cases hb : (st.db.existsAll hcr.2).1 with
    | false =>
      have hs : hcr.2.all (semExistsB db0) = false := by rw [← he.1, hb]
      have hstep : storeChainStep true st hcr =
          { st with totalHostCerts := st.totalHostCerts + hcr.2.length,
                    totalHosts := st.totalHosts + 1,
                    db := (st.db.existsAll hcr.2).2,
                    broken := st.broken ++ [chainLine (hcr.1.getD []) hcr.2],
                    brokenChains := st.brokenChains + 1 } := by
        simp [storeChainStep, hb]
      rw [List.foldl_cons, hstep]
      have hrest := ih
        { st with totalHostCerts := st.totalHostCerts + hcr.2.length,
                  totalHosts := st.totalHosts + 1,
                  db := (st.db.existsAll hcr.2).2,
                  broken := st.broken ++ [chainLine (hcr.1.getD []) hcr.2],
                  brokenChains := st.brokenChains + 1 } he.2.2 he.2.1
      simp only at hrest
      refine ⟨?_, ?_⟩
      · rw [hrest.1]
        simp [List.filter_cons, hs]
      · rw [hrest.2]
        simp [List.filter_cons, hs, List.append_assoc]
    | true =>
      have hs : hcr.2.all (semExistsB db0) = true := by rw [← he.1, hb]
      have hstep : storeChainStep true st hcr =
          { st with totalHostCerts := st.totalHostCerts + hcr.2.length,
                    totalHosts := st.totalHosts + 1,
                    db := (st.db.existsAll hcr.2).2,
                    full := st.full ++ [chainLine (hcr.1.getD []) hcr.2] } := by
        simp [storeChainStep, hb]
      rw [List.foldl_cons, hstep]
      have hrest := ih
        { st with totalHostCerts := st.totalHostCerts + hcr.2.length,
                  totalHosts := st.totalHosts + 1,
                  db := (st.db.existsAll hcr.2).2,
                  full := st.full ++ [chainLine (hcr.1.getD []) hcr.2] } he.2.2 he.2.1
      simp only at hrest
      refine ⟨?_, ?_⟩
      · rw [hrest.1]
        simp [List.filter_cons, hs, List.append_assoc]
      · rw [hrest.2]
        simp [List.filter_cons, hs]

/-- Every record `parse_chains` yields carries an actual host once the
input is non-empty. -/
theorem parseChainsAux_hosts (l : List (Str × Str)) :
    ∀ last chain, (last ≠ none ∨ l ≠ []) →
    ∀ hc ∈ parseChainsAux last chain l, hc.1 ≠ none := by
  induction l with
  | nil =>
    intro last chain h hc hmem
    simp only [parseChainsAux, List.mem_singleton] at hmem
    subst hmem
    rcases h with h | h
    · exact h
    · exact absurd rfl h
  | cons p rest ih =>
    intro last chain h hc hmem
    obtain ⟨curr, sha⟩ := p
    unfold parseChainsAux at hmem
    by_cases hcond : pyTruthy last ∧ last ≠ some curr
    · rw [if_pos hcond] at hmem
      rcases List.mem_cons.mp hmem with rfl | hmem
      · cases last with
        | none => simp [pyTruthy] at hcond
        | some s => simp
      · exact ih (some curr) [sha] (Or.inl (by simp)) hc hmem
    · rw [if_neg hcond] at hmem
      exact ih (some curr) (chain ++ [sha]) (Or.inl (by simp)) hc hmem

/-- C2: over any certs/hosts run with a broken-chain file configured
and a sound cache, `store_chains` writes exactly the hosts whose whole
chain passes `exists_all` (read on the store at the start of the pass)
to the chain file, and exactly the others to the broken-chain file, in
input order; with a non-empty hosts dump every record carries a host. -/
theorem storeChains_classifies (db : DB) (records : List (Str × Str))
    (h : CacheSound db) (hne : records ≠ []) :
    ((storeChains db true records).full =
      ((parseChains records).filter (fun hc => hc.2.all (semExistsB db))).map
        (fun hc => chainLine (hc.1.getD []) hc.2)) ∧
    ((storeChains db true records).broken =
      ((parseChains records).filter (fun hc => !(hc.2.all (semExistsB db)))).map
        (fun hc => chainLine (hc.1.getD []) hc.2)) ∧
    (∀ hc ∈ parseChains records, hc.1 ≠ none) := by
  have hf := storeChains_fold db (parseChains records)
    { full := [], broken := [], db := db, totalHosts := 0, totalHostCerts := 0,
      brokenChains := 0 } h ⟨rfl, rfl, rfl, rfl, rfl⟩
  refine ⟨?_, ?_, parseChainsAux_hosts records none [] (Or.inr hne)⟩
  · rw [show (storeChains db true records) = (parseChains records).foldl (storeChainStep true)
      { full := [], broken := [], db := db, totalHosts := 0, totalHostCerts := 0,
        brokenChains := 0 } from rfl]
    rw [hf.1]
    simp
  · rw [show (storeChains db true records) = (parseChains records).foldl (storeChainStep true)
      { full := [], broken := [], db := db, totalHosts := 0, totalHostCerts := 0,
        brokenChains := 0 } from rfl]
    rw [hf.2]
    simp

/-- C2 witness: cert dump `{A}`, hosts dump `h1,A / h2,A / h2,B` — the
chain file gets exactly `h1,A`, the broken-chain file exactly
`h2,A,B`. -/
theorem storeChains_classifies_witness :
    (storeChains c2dbIn true c2records).full = [("h1,A\n".data)] ∧
    (storeChains c2dbIn true c2records).broken = [("h2,A,B\n".data)] := by
  have h := storeChains_classifies c2dbIn c2records
    (by intro c hcm; rw [show c2dbIn.cache = [] from rfl] at hcm; cases hcm) (by decide)
  exact ⟨h.1.trans (by decide), h.2.1.trans (by decide)⟩

/-- C10 witness: a concrete store with an existing META file; the commit
returns `(0, 0)`, the filesystem is untouched, and HISTORY gains entry
`"2"` with zero counts while `last_commit` moves to the new timestamp. -/
theorem commit_empty_transaction_witness :
    (c10db.commit ("t1".data)).1 = (0, 0) ∧
    ((c10db.commit ("t1".data)).2).fs = c10db.fs ∧
    ((c10db.commit ("t1".data)).2).meta = some
      { owner := ("o".data), description := ("d".data), created := ("t0".data),
        number_of_certificates := some 1, last_commit := some ("t1".data),
        history := [((natStr 1), { date := ("t0".data), inserted := 1, deleted := 0 }),
          ((natStr 2), { date := ("t1".data), inserted := 0, deleted := 0 })] } := by
  have h := commit_empty_transaction c10db ("t1".data) rfl rfl
  refine ⟨h.1, h.2.1, ?_⟩
  rw [h.2.2.1 rfl]
  decide

/-! Pointwise facts about the filesystem operations of `commit`. -/

theorem fsSet_self (fs : FS) (p : Str) (v : Option FSNode) : fsSet fs p v p = v := by
  simp [fsSet]

theorem fsSet_other (fs : FS) (p : Str) (v : Option FSNode) (q : Str) (h : q ≠ p) :
    fsSet fs p v q = fs q := by
  simp [fsSet, h]

theorem fsSet_comm (fs : FS) (p1 : Str) (v1 : Option FSNode) (p2 : Str) (v2 : Option FSNode)
    (h : p1 ≠ p2) : fsSet (fsSet fs p1 v1) p2 v2 = fsSet (fsSet fs p2 v2) p1 v1 := by
  funext q
  by_cases h2 : q = p2
  · subst h2
    rw [fsSet_self, fsSet_other _ _ _ _ (fun e => h e.symm), fsSet_self]
  · by_cases h1 : q = p1
    · subst h1
      rw [fsSet_other _ _ _ _ h2, fsSet_self, fsSet_self]
    · rw [fsSet_other _ _ _ _ h2, fsSet_other _ _ _ _ h1, fsSet_other _ _ _ _ h1,
        fsSet_other _ _ _ _ h2]

theorem zipLookup_congr {fs1 fs2 : FS} (a x : Str) (h : fs1 a = fs2 a) :
    zipLookup fs1 a x = zipLookup fs2 a x := by
  unfold zipLookup
  rw [h]

theorem zipLookup_node (fs : FS) (a x : Str) :
    zipLookup fs a x =
      (match fs a with
       | some (FSNode.zipArchive ms) => ms.lookup x
       | _ => none) := rfl

theorem foldRemove_other (g : Str) (certs : List Str) (fs : FS) (p : Str)
    (h : ∀ c ∈ certs, p ≠ g ++ c) :
    (certs.foldl (fun f cert => fsSet f (g ++ cert) none) fs) p = fs p := by
  induction certs generalizing fs with
  | nil => rfl
  | cons c rest ih =>
    rw [List.foldl_cons, ih _ (fun c' hc' => h c' (List.mem_cons_of_mem _ hc'))]
    exact fsSet_other _ _ _ _ (h c (List.mem_cons_self _ _))

theorem foldRemove_eval (g : Str) (certs : List Str) (fs : FS) (q : Str) :
    (certs.foldl (fun f cert => fsSet f (g ++ cert) none) fs) q =
      if ∃ c ∈ certs, q = g ++ c then none else fs q := by
  induction certs generalizing fs with
  | nil => simp
  | cons c rest ih =>
    rw [List.foldl_cons, ih]
    by_cases h1 : ∃ c' ∈ rest, q = g ++ c'
    · rw [if_pos h1, if_pos (by obtain ⟨c', hc', he⟩ := h1; exact ⟨c', List.mem_cons_of_mem _ hc', he⟩)]
    · rw [if_neg h1]
      by_cases h2 : q = g ++ c
      · rw [h2, fsSet_self, if_pos ⟨c, List.mem_cons_self _ _, rfl⟩]
      · rw [fsSet_other _ _ _ _ h2, if_neg]
        intro hex
        obtain ⟨c', hc', he⟩ := hex
        rcases List.mem_cons.mp hc' with rfl | hc'
        · exact h2 he
        · exact h1 ⟨c', hc', he⟩

theorem persist_fold_eq (append : Bool) (persisted : List Str) (g : Str) (fs : FS)
    (certs : List Str) : ∀ (n0 : Nat) (ms0 : List (Str × Str)),
    certs.foldl (fun (acc : Nat × List (Str × Str)) cert =>
        if append && persisted.contains cert then acc
        else (acc.1 + 1, acc.2 ++ [(cert, fileContent fs (g ++ cert))])) (n0, ms0) =
      (n0 + (certs.filter (fun c => !(append && persisted.contains c))).length,
       ms0 ++ (certs.filter (fun c => !(append && persisted.contains c))).map
         (fun c => (c, fileContent fs (g ++ c)))) := by
  induction certs with
  | nil =>
    intro n0 ms0
    simp
  | cons c rest ih =>
    intro n0 ms0
    rw [List.foldl_cons]
    by_cases hc : (append && persisted.contains c) = true
    · have hcf : (!(append && persisted.contains c)) = false := by rw [hc]; rfl
      rw [if_pos hc, ih, List.filter_cons]
      simp only [hcf, Bool.false_eq_true, if_false]
    · have hcb : (append && persisted.contains c) = false := Bool.eq_false_iff.mpr hc
      have hcf : (!(append && persisted.contains c)) = true := by rw [hcb]; rfl
      rw [if_neg hc, ih, List.filter_cons]
      simp only [hcf, if_true, List.length_cons, List.map_cons, Prod.mk.injEq]
      constructor
      · omega
      · simp [List.append_assoc]

theorem persist_certs_eq (g a : Str) (certs : List Str) (fs : FS) (h : certs ≠ []) :
    persist_certs g a certs fs =
      ((certs.filter (fun c => !((fs a).isSome && (archNames (fs a)).contains c))).length,
       fsSet (certs.foldl (fun f cert => fsSet f (g ++ cert) none) fs) a
         (some (FSNode.zipArchive (archMembers (fs a) ++
           (certs.filter (fun c => !((fs a).isSome && (archNames (fs a)).contains c))).map
             (fun c => (c, fileContent fs (g ++ c))))))) := by
  simp only [persist_certs]
  rw [if_neg (by simpa [List.isEmpty_iff] using h)]
  have hm : (match fs a with
      | some (FSNode.zipArchive ms) => ms
      | _ => []) = archMembers (fs a) := by
    unfold archMembers
    rfl
  rw [hm]
  rw [persist_fold_eq ((fs a).isSome) (List.map Prod.fst (archMembers (fs a))) g fs certs 0
    (archMembers (fs a))]
  simp [archNames]

theorem persist_at_other (g a : Str) (certs : List Str) (fs : FS) (p : Str)
    (ha : p ≠ a) (ht : ∀ c ∈ certs, p ≠ g ++ c) :
    (persist_certs g a certs fs).2 p = fs p := by
  by_cases h : certs = []
  · subst h
    rfl
  · rw [persist_certs_eq g a certs fs h]
    exact (fsSet_other _ _ _ _ ha).trans (foldRemove_other g certs fs p ht)

theorem persist_at_self_eq (g a : Str) (certs : List Str) (fs : FS) (hne : certs ≠ []) :
    (persist_certs g a certs fs).2 a =
      some (FSNode.zipArchive (archMembers (fs a) ++
        (certs.filter (fun c => !((fs a).isSome && (archNames (fs a)).contains c))).map
          (fun c => (c, fileContent fs (g ++ c))))) := by
  rw [persist_certs_eq g a certs fs hne]
  exact fsSet_self _ _ _

theorem archMembers_lookup_none {fs : FS} {a x : Str} (h : zipLookup fs a x = none) :
    (archMembers (fs a)).lookup x = none := by
  rw [zipLookup_node] at h
  cases hfa : fs a with
  | none => simp [archMembers]
  | some node =>
    cases node with
    | file c => simp [archMembers]
    | zipArchive ms =>
      rw [hfa] at h
      simpa [archMembers] using h

theorem persist_lookup_none (g a : Str) (certs : List Str) (fs : FS) (x : Str)
    (hxc : x ∉ certs) (h : zipLookup fs a x = none) :
    zipLookup (persist_certs g a certs fs).2 a x = none := by
  by_cases hne : certs = []
  · subst hne
    exact h
  · rw [zipLookup_node, persist_at_self_eq g a certs fs hne]
    simp only
    rw [lookup_append_none (archMembers_lookup_none h)]
    exact lookup_map_graph_none (fun hm => hxc (List.mem_of_mem_filter hm))

theorem persist_lookup_some (g a : Str) (certs : List Str) (fs : FS) (x b : Str)
    (hmem : x ∈ certs)
    (hnone : zipLookup fs a x = none)
    (hfile : fs (g ++ x) = some (FSNode.file b)) :
    zipLookup (persist_certs g a certs fs).2 a x = some b := by
  have hne : certs ≠ [] := List.ne_nil_of_mem hmem
  rw [zipLookup_node, persist_at_self_eq g a certs fs hne]
  simp only
  have hinit : (archMembers (fs a)).lookup x = none := archMembers_lookup_none hnone
  rw [lookup_append_none hinit]
  have hxnames : (archNames (fs a)).contains x = false := by
    rw [← Bool.not_eq_true, contains_iff_mem]
    intro hmem'
    obtain ⟨p, hp, hpe⟩ := List.mem_map.mp hmem'
    exact lookup_none_iff.mp hinit p hp hpe
  have hpred : (!((fs a).isSome && (archNames (fs a)).contains x)) = true := by
    rw [hxnames, Bool.and_false]
    rfl
  have hmemf : x ∈ certs.filter
      (fun c => !((fs a).isSome && (archNames (fs a)).contains c)) :=
    List.mem_filter.mpr ⟨hmem, hpred⟩
  rw [lookup_graph hmemf]
  unfold fileContent
  rw [hfile]

theorem delete_at_other (a : Str) (certs : List Str) (fs : FS) (p : Str) (h : p ≠ a) :
    (delete_certs a certs fs).2 p = fs p := by
  unfold delete_certs
  exact fsSet_other _ _ _ _ h

theorem delete_at_self (a : Str) (certs : List Str) (fs : FS) :
    (delete_certs a certs fs).2 a = (dcRes certs (fs a)).2 := by
  unfold delete_certs
  exact fsSet_self _ _ _

theorem lookup_filter_none {ms : List (Str × Str)} {x : Str} (p : Str × Str → Bool)
    (h : ms.lookup x = none) : (ms.filter p).lookup x = none := by
  rw [lookup_none_iff] at h ⊢
  intro q hq
  exact h q (List.mem_of_mem_filter hq)

theorem delete_lookup_none (a : Str) (certs : List Str) (fs : FS) (x : Str)
    (h : zipLookup fs a x = none) :
    zipLookup (delete_certs a certs fs).2 a x = none := by
  rw [zipLookup_node, delete_at_self]
  rw [zipLookup_node] at h
  cases hfa : fs a with
  | none => cases certs <;> simp [dcRes]
  | some node =>
    cases node with
    | file c => cases certs <;> simp [dcRes]
    | zipArchive ms =>
      rw [hfa] at h
      simp only at h
      cases certs with
      | nil => simpa [dcRes] using h
      | cons c rest =>
        simp only [dcRes]
        by_cases hk : (ms.filter
            (fun m => !((c :: rest).contains (splitextStem m.1)))).isEmpty = true
        · rw [if_pos hk]
        · rw [if_neg hk]
          exact lookup_filter_none _ h

/-! Claim C3: the two phases of `commit` are insensitive to the order in
which the per-block tasks of a phase run, because distinct blocks have
disjoint path footprints. -/

theorem persist_at_eval (g a : Str) (certs : List Str) (fs : FS) (q : Str) (hqa : q ≠ a)
    (hne : certs ≠ []) :
    (persist_certs g a certs fs).2 q = if ∃ c ∈ certs, q = g ++ c then none else fs q := by
  rw [persist_certs_eq g a certs fs hne]
  exact (fsSet_other _ _ _ _ hqa).trans (foldRemove_eval g certs fs q)

theorem persist_congr (g a : Str) (certs : List Str) {fs fs' : FS}
    (ha : fs' a = fs a) (ht : ∀ c ∈ certs, fs' (g ++ c) = fs (g ++ c)) :
    (persist_certs g a certs fs').1 = (persist_certs g a certs fs).1 ∧
    (persist_certs g a certs fs').2 a = (persist_certs g a certs fs).2 a := by
  by_cases hne : certs = []
  · subst hne
    exact ⟨rfl, ha⟩
  · constructor
    · rw [persist_certs_eq g a certs fs hne, persist_certs_eq g a certs fs' hne]
      simp only
      rw [ha]
    · have hmap : List.map (fun c => (c, fileContent fs' (g ++ c)))
          (certs.filter (fun c => !((fs a).isSome && (archNames (fs a)).contains c))) =
          List.map (fun c => (c, fileContent fs (g ++ c)))
          (certs.filter (fun c => !((fs a).isSome && (archNames (fs a)).contains c))) := by
        apply List.map_congr_left
        intro c hc
        have hcm : c ∈ certs := List.mem_of_mem_filter hc
        unfold fileContent
        rw [ht c hcm]
      rw [persist_at_self_eq g a certs fs hne, persist_at_self_eq g a certs fs' hne, ha, hmap]

theorem deleteStep_comm (db : DB) (e1 e2 : Str × List Str)
    (h : blockArchive db.storage db.structure_level e1.1 ≠
         blockArchive db.storage db.structure_level e2.1)
    (z : Nat × FS) :
    deleteStep db (deleteStep db z e1) e2 = deleteStep db (deleteStep db z e2) e1 := by
  have h21 : blockArchive db.storage db.structure_level e2.1 ≠
      blockArchive db.storage db.structure_level e1.1 := fun e => h e.symm
  simp only [deleteStep, delete_certs]
  rw [fsSet_other z.2 (blockArchive db.storage db.structure_level e1.1) _
      (blockArchive db.storage db.structure_level e2.1) h21,
    fsSet_other z.2 (blockArchive db.storage db.structure_level e2.1) _
      (blockArchive db.storage db.structure_level e1.1) h]
  simp only [Prod.mk.injEq]
  exact ⟨by omega, fsSet_comm z.2 _ _ _ _ h⟩

theorem insertStep_comm (db : DB) (e1 e2 : Str × List Str)
    (harch : blockArchive db.storage db.structure_level e1.1 ≠
             blockArchive db.storage db.structure_level e2.1)
    (ht12 : ∀ c ∈ e1.2, ∀ c' ∈ e2.2,
      blockPath db.storage db.structure_level e1.1 ++ c ≠
      blockPath db.storage db.structure_level e2.1 ++ c')
    (ha1t2 : ∀ c' ∈ e2.2, blockArchive db.storage db.structure_level e1.1 ≠
      blockPath db.storage db.structure_level e2.1 ++ c')
    (ha2t1 : ∀ c ∈ e1.2, blockArchive db.storage db.structure_level e2.1 ≠
      blockPath db.storage db.structure_level e1.1 ++ c)
    (z : Nat × FS) :
    insertStep db (insertStep db z e1) e2 = insertStep db (insertStep db z e2) e1 := by
  simp only [insertStep]
  set g1 := blockPath db.storage db.structure_level e1.1
  set g2 := blockPath db.storage db.structure_level e2.1
  set a1 := blockArchive db.storage db.structure_level e1.1
  set a2 := blockArchive db.storage db.structure_level e2.1
  have h21 : a2 ≠ a1 := fun e => harch e.symm
  by_cases hne1 : e1.2 = []
  · have hid : ∀ fs : FS, persist_certs g1 a1 e1.2 fs = (0, fs) := by
      intro fs
      rw [hne1]
      rfl
    simp only [hid]
    simp only [Prod.mk.injEq]
    exact ⟨by omega, trivial⟩
  · by_cases hne2 : e2.2 = []
    · have hid : ∀ fs : FS, persist_certs g2 a2 e2.2 fs = (0, fs) := by
        intro fs
        rw [hne2]
        rfl
      simp only [hid]
      simp only [Prod.mk.injEq]
      exact ⟨by omega, trivial⟩
    · have hF1a2 : (persist_certs g1 a1 e1.2 z.2).2 a2 = z.2 a2 :=
        persist_at_other g1 a1 e1.2 z.2 a2 h21 ha2t1
      have hF1t2 : ∀ c' ∈ e2.2, (persist_certs g1 a1 e1.2 z.2).2 (g2 ++ c') = z.2 (g2 ++ c') :=
        fun c' hc' => persist_at_other g1 a1 e1.2 z.2 _ (fun e => ha1t2 c' hc' e.symm)
          (fun c hc e => ht12 c hc c' hc' e.symm)
      have hF2a1 : (persist_certs g2 a2 e2.2 z.2).2 a1 = z.2 a1 :=
        persist_at_other g2 a2 e2.2 z.2 a1 harch ha1t2
      have hF2t1 : ∀ c ∈ e1.2, (persist_certs g2 a2 e2.2 z.2).2 (g1 ++ c) = z.2 (g1 ++ c) :=
        fun c hc => persist_at_other g2 a2 e2.2 z.2 _ (fun e => ha2t1 c hc e.symm)
          (fun c' hc' e => ht12 c hc c' hc' e)
      obtain ⟨hc2, hv2⟩ := persist_congr g2 a2 e2.2 hF1a2 hF1t2
      obtain ⟨hc1, hv1⟩ := persist_congr g1 a1 e1.2 hF2a1 hF2t1
      simp only [Prod.mk.injEq]
      constructor
      · rw [hc2, hc1]
        omega
      · funext q
        by_cases hq2 : q = a2
        · subst hq2
          rw [hv2, persist_at_other g1 a1 e1.2 _ _ h21 ha2t1]
        · by_cases hq1 : q = a1
          · subst hq1
            rw [hv1, persist_at_other g2 a2 e2.2 _ _ harch ha1t2]
          · by_cases hqt2 : ∃ c' ∈ e2.2, q = g2 ++ c'
            · have hq1e : ¬ ∃ c ∈ e1.2, q = g1 ++ c := by
                rintro ⟨c, hc, rfl⟩
                obtain ⟨c', hc', he⟩ := hqt2
                exact ht12 c hc c' hc' he
              rw [persist_at_eval g2 a2 e2.2 ((persist_certs g1 a1 e1.2 z.2).2) q hq2 hne2,
                if_pos hqt2,
                persist_at_eval g1 a1 e1.2 ((persist_certs g2 a2 e2.2 z.2).2) q hq1 hne1,
                if_neg hq1e,
                persist_at_eval g2 a2 e2.2 z.2 q hq2 hne2, if_pos hqt2]
            · by_cases hqt1 : ∃ c ∈ e1.2, q = g1 ++ c
              · rw [persist_at_eval g2 a2 e2.2 ((persist_certs g1 a1 e1.2 z.2).2) q hq2 hne2,
                  if_neg hqt2,
                  persist_at_eval g1 a1 e1.2 z.2 q hq1 hne1, if_pos hqt1,
                  persist_at_eval g1 a1 e1.2 ((persist_certs g2 a2 e2.2 z.2).2) q hq1 hne1,
                  if_pos hqt1]
              · rw [persist_at_eval g2 a2 e2.2 ((persist_certs g1 a1 e1.2 z.2).2) q hq2 hne2,
                  if_neg hqt2,
                  persist_at_eval g1 a1 e1.2 z.2 q hq1 hne1, if_neg hqt1,
                  persist_at_eval g1 a1 e1.2 ((persist_certs g2 a2 e2.2 z.2).2) q hq1 hne1,
                  if_neg hqt1,
                  persist_at_eval g2 a2 e2.2 z.2 q hq2 hne2, if_neg hqt2]

theorem entry_key_ne {l : List (Str × List Str)} (h : (l.map Prod.fst).Nodup)
    {x y : Str × List Str} (hx : x ∈ l) (hy : y ∈ l) (hne : x ≠ y) : x.1 ≠ y.1 := by
  intro he
  exact hne (List.inj_on_of_nodup_map h hx hy he)

theorem wf_del_goodKey (db : DB) (hwf : Wf db) :
    ∀ e ∈ db.to_delete, GoodKey db.storage db.structure_level e.1 := by
  intro e he
  obtain ⟨hne, hnd, hall⟩ := hwf.delMem e he
  obtain ⟨c, hc⟩ := List.exists_mem_of_ne_nil _ hne
  exact goodKey_of_blockId _ _ (hall c hc).1.2.1 (hall c hc).2

theorem wf_ins_goodKey (db : DB) (hwf : Wf db) :
    ∀ e ∈ db.to_insert, GoodKey db.storage db.structure_level e.1 := by
  intro e he
  obtain ⟨hne, hnd, hall⟩ := hwf.insMem e he
  obtain ⟨c, hc⟩ := List.exists_mem_of_ne_nil _ hne
  exact goodKey_of_blockId _ _ (hall c hc).1.2.1 (hall c hc).2.1

/-- C3: for any well-formed transaction state, running the commit phases
over any order of the per-block deletion tasks and any order of the
per-block insertion tasks (as the `__commit_async` worker pool does,
deletions joined before insertions start) produces exactly the result of
the sequential `cpu_cores = 1` commit: the same (inserted, deleted)
counts and the same filesystem, archive for archive and member for
member. -/
theorem commit_parallel_eq (db : DB) (hwf : Wf db) (dl il : List (Str × List Str))
    (hdl : dl.Perm db.to_delete) (hil : il.Perm db.to_insert) :
    commitCore db dl il = commitCore db db.to_delete db.to_insert := by
  have hgd := wf_del_goodKey db hwf
  have hgi := wf_ins_goodKey db hwf
  have hfd : ∀ st : Nat × FS, dl.foldl (deleteStep db) st = db.to_delete.foldl (deleteStep db) st := by
    intro st
    refine List.Perm.foldl_eq' hdl ?_ st
    intro x hx y hy z
    by_cases hxy : x = y
    · rw [hxy]
    · have hx' := hdl.subset hx
      have hy' := hdl.subset hy
      have hkne : x.1 ≠ y.1 := entry_key_ne hwf.delKeys hx' hy' hxy
      exact deleteStep_comm db x y (archive_inj _ _ (hgd x hx') (hgd y hy') hkne) z
  have hfi : ∀ st : Nat × FS, il.foldl (insertStep db) st = db.to_insert.foldl (insertStep db) st := by
    intro st
    refine List.Perm.foldl_eq' hil ?_ st
    intro x hx y hy z
    by_cases hxy : x = y
    · rw [hxy]
    · have hx' := hil.subset hx
      have hy' := hil.subset hy
      have hkne : x.1 ≠ y.1 := entry_key_ne hwf.insKeys hx' hy' hxy
      have hgx := hgi x hx'
      have hgy := hgi y hy'
      have hsx : ∀ c ∈ x.2, SafeId c := fun c hc => ((hwf.insMem x hx').2.2 c hc).1
      have hsy : ∀ c ∈ y.2, SafeId c := fun c hc => ((hwf.insMem y hy').2.2 c hc).1
      apply insertStep_comm db x y
      · exact archive_inj _ _ hgx hgy hkne
      · intro c hc c' hc' he
        rw [blockPath_append, blockPath_append] at he
        obtain ⟨hd, hcc⟩ := slash_append_inj (hsx c hc).2.1 (hsy c' hc').2.1 he
        exact hkne (blockDir_inj _ _ hgx hgy hd)
      · exact fun c' hc' => Ne.symm (temp_ne_archive db.storage db.structure_level
          (hsy c' hc') hgx.2)
      · exact fun c hc => Ne.symm (temp_ne_archive db.storage db.structure_level
          (hsx c hc) hgy.2)
  simp only [commitCore]
  rw [hfd, hfi]

/-- C3 witness: a concrete transaction over three blocks, with the
insertion tasks submitted in the reversed order. -/
theorem commit_parallel_eq_witness :
    commitCore c3db [(("cc".data), [("cc1".data)])]
      [(("bb".data), [("bb1".data)]), (("aa".data), [("aa1".data), ("aa2".data)])] =
    commitCore c3db c3db.to_delete c3db.to_insert :=
  commit_parallel_eq c3db
    ⟨by decide, by decide, by decide, by decide, by decide, by decide⟩
    _ _ (by decide) (by decide)

/-! Claims C1 and C4 (amended): facts about whole commit runs. -/

theorem inTransB_nil (k c : Str) : inTransB [] k c = false := rfl

theorem commit_fields (db : DB) (now : Str) :
    ((db.commit now).2).storage = db.storage ∧
    ((db.commit now).2).structure_level = db.structure_level ∧
    ((db.commit now).2).to_insert = [] ∧
    ((db.commit now).2).to_delete = [] ∧
    ((db.commit now).2).cache = db.cache ∧
    ((db.commit now).2).fs = (commitCore db db.to_delete db.to_insert).2 := by
  simp only [DB.commit]
  cases hm : db.maintain_info
  · simp [hm]
  · simp [hm, writeCommitInfo]

theorem foldDel_at (db : DB) (l : List (Str × List Str)) (st : Nat × FS) (p : Str)
    (h : ∀ e ∈ l, p ≠ blockArchive db.storage db.structure_level e.1) :
    (l.foldl (deleteStep db) st).2 p = st.2 p := by
  induction l generalizing st with
  | nil => rfl
  | cons e rest ih =>
    rw [List.foldl_cons, ih _ (fun e' he' => h e' (List.mem_cons_of_mem _ he'))]
    exact delete_at_other _ _ _ _ (h e (List.mem_cons_self _ _))

theorem foldDel_lookup (db : DB) (l : List (Str × List Str)) (st : Nat × FS) (a x : Str)
    (h : zipLookup st.2 a x = none) :
    zipLookup (l.foldl (deleteStep db) st).2 a x = none := by
  induction l generalizing st with
  | nil => exact h
  | cons e rest ih =>
    rw [List.foldl_cons]
    apply ih
    by_cases he : blockArchive db.storage db.structure_level e.1 = a
    · subst he
      exact delete_lookup_none _ _ _ _ h
    · have hfr := delete_at_other (blockArchive db.storage db.structure_level e.1) e.2 st.2 a
        (fun hh => he hh.symm)
      exact (zipLookup_congr a x hfr).trans h

theorem foldIns_at (db : DB) (l : List (Str × List Str)) (st : Nat × FS) (p : Str)
    (h : ∀ e ∈ l, p ≠ blockArchive db.storage db.structure_level e.1 ∧
         ∀ c ∈ e.2, p ≠ blockPath db.storage db.structure_level e.1 ++ c) :
    (l.foldl (insertStep db) st).2 p = st.2 p := by
  induction l generalizing st with
  | nil => rfl
  | cons e rest ih =>
    rw [List.foldl_cons, ih _ (fun e' he' => h e' (List.mem_cons_of_mem _ he'))]
    exact persist_at_other _ _ _ _ _ (h e (List.mem_cons_self _ _)).1
      (h e (List.mem_cons_self _ _)).2

theorem foldIns_lookup (db : DB) (l : List (Str × List Str)) (st : Nat × FS) (a x : Str)
    (h0 : zipLookup st.2 a x = none)
    (hx : ∀ e ∈ l, x ∉ e.2)
    (ht : ∀ e ∈ l, ∀ c ∈ e.2, a ≠ blockPath db.storage db.structure_level e.1 ++ c) :
    zipLookup (l.foldl (insertStep db) st).2 a x = none := by
  induction l generalizing st with
  | nil => exact h0
  | cons e rest ih =>
    rw [List.foldl_cons]
    refine ih _ ?_ (fun e' he' => hx e' (List.mem_cons_of_mem _ he'))
      (fun e' he' => ht e' (List.mem_cons_of_mem _ he'))
    by_cases he : blockArchive db.storage db.structure_level e.1 = a
    · subst he
      exact persist_lookup_none _ _ _ _ _ (hx e (List.mem_cons_self _ _)) h0
    · have hfr := persist_at_other (blockPath db.storage db.structure_level e.1)
        (blockArchive db.storage db.structure_level e.1) e.2 st.2 a
        (fun hh => he hh.symm) (ht e (List.mem_cons_self _ _))
      exact (zipLookup_congr a x hfr).trans h0

/-- After the insertion phase runs over `P1 ++ (k, S) :: P2`, where `k`
is the block of `x`, `x ∈ S`, the temporary file of `x` holds `b`, and
every other block's footprint avoids both the temporary file and the
archive of `x`, the archive of `x` holds member `x` with content `b`. -/
theorem foldIns_final_lookup (db : DB) (P1 : List (Str × List Str)) (k : Str)
    (S : List Str) (P2 : List (Str × List Str)) (st : Nat × FS) (x b : Str)
    (hx_mem : x ∈ S)
    (harch_eq : blockArchive db.storage db.structure_level k =
      blockArchive db.storage db.structure_level x)
    (hpath_eq : blockPath db.storage db.structure_level k =
      blockPath db.storage db.structure_level x)
    (h1 : ∀ e ∈ P1,
      (blockPath db.storage db.structure_level x ++ x ≠
        blockArchive db.storage db.structure_level e.1) ∧
      (∀ c ∈ e.2, blockPath db.storage db.structure_level x ++ x ≠
        blockPath db.storage db.structure_level e.1 ++ c) ∧
      (blockArchive db.storage db.structure_level x ≠
        blockArchive db.storage db.structure_level e.1) ∧
      (∀ c ∈ e.2, blockArchive db.storage db.structure_level x ≠
        blockPath db.storage db.structure_level e.1 ++ c))
    (h2 : ∀ e ∈ P2,
      (blockArchive db.storage db.structure_level x ≠
        blockArchive db.storage db.structure_level e.1) ∧
      (∀ c ∈ e.2, blockArchive db.storage db.structure_level x ≠
        blockPath db.storage db.structure_level e.1 ++ c))
    (htmp0 : st.2 (blockPath db.storage db.structure_level x ++ x) =
      some (FSNode.file b))
    (harch0 : zipLookup st.2 (blockArchive db.storage db.structure_level x) x = none) :
    zipLookup (((P1 ++ (k, S) :: P2).foldl (insertStep db) st).2)
      (blockArchive db.storage db.structure_level x) x = some b := by
  rw [List.foldl_append, List.foldl_cons]
  have ht1 : ((P1.foldl (insertStep db) st).2)
      (blockPath db.storage db.structure_level x ++ x) = some (FSNode.file b) := by
    rw [foldIns_at db P1 st _ (fun e he => ⟨(h1 e he).1, (h1 e he).2.1⟩)]
    exact htmp0
  have ha1 : zipLookup ((P1.foldl (insertStep db) st).2)
      (blockArchive db.storage db.structure_level x) x = none := by
    have hfr := foldIns_at db P1 st (blockArchive db.storage db.structure_level x)
      (fun e he => ⟨(h1 e he).2.2.1, (h1 e he).2.2.2⟩)
    exact (zipLookup_congr _ x hfr).trans harch0
  have hmid : zipLookup ((insertStep db (P1.foldl (insertStep db) st) (k, S)).2)
      (blockArchive db.storage db.structure_level x) x = some b := by
    show zipLookup ((persist_certs (blockPath db.storage db.structure_level k)
      (blockArchive db.storage db.structure_level k) S
      ((P1.foldl (insertStep db) st).2)).2)
      (blockArchive db.storage db.structure_level x) x = some b
    rw [hpath_eq, harch_eq]
    exact persist_lookup_some _ _ S _ x b hx_mem ha1 ht1
  have hfr2 := foldIns_at db P2 (insertStep db (P1.foldl (insertStep db) st) (k, S))
    (blockArchive db.storage db.structure_level x) h2
  exact (zipLookup_congr _ x hfr2).trans hmid

theorem setAdd_not_mem {s : List Str} {c : Str} (h : c ∉ s) : setAdd s c = s ++ [c] := by
  unfold setAdd
  rw [if_neg (fun hc => h (contains_iff_mem.mp hc))]

theorem setAdd_contains (s : List Str) (c : Str) : (setAdd s c).contains c = true := by
  unfold setAdd
  by_cases h : s.contains c = true
  · rw [if_pos h]
    exact h
  · rw [if_neg h, contains_iff_mem]
    exact List.mem_append_right _ (List.mem_singleton.mpr rfl)

theorem dictAdd_inTrans (d : List (Str × List Str)) (k c : Str) :
    inTransB (dictAdd d k c) k c = true := by
  induction d with
  | nil =>
    unfold dictAdd inTransB
    rw [lookup_cons_self, contains_iff_mem]
    exact List.mem_singleton.mpr rfl
  | cons p rest ih =>
    obtain ⟨k', s'⟩ := p
    by_cases he : k' = k
    · subst he
      unfold dictAdd
      rw [if_pos rfl]
      unfold inTransB
      rw [lookup_cons_self]
      exact setAdd_contains s' c
    · unfold dictAdd
      rw [if_neg he]
      unfold inTransB
      rw [lookup_cons_ne _ _ (fun h => he h.symm)]
      unfold inTransB at ih
      exact ih

theorem dictAdd_cases (d : List (Str × List Str)) (k c : Str) :
    (d.lookup k = none ∧ dictAdd d k c = d ++ [(k, [c])]) ∨
    (∃ pre s post, d = pre ++ (k, s) :: post ∧
      dictAdd d k c = pre ++ (k, setAdd s c) :: post ∧ pre.lookup k = none) := by
  induction d with
  | nil =>
    left
    exact ⟨rfl, rfl⟩
  | cons p rest ih =>
    obtain ⟨k', s'⟩ := p
    by_cases he : k' = k
    · subst he
      right
      exact ⟨[], s', rest, rfl, by simp [dictAdd], rfl⟩
    · rcases ih with ⟨h1, h2⟩ | ⟨pre, s, post, h1, h2, h3⟩
      · left
        refine ⟨?_, ?_⟩
        · rw [lookup_cons_ne _ _ (fun h => he h.symm)]
          exact h1
        · simp [dictAdd, he, h2]
      · right
        refine ⟨(k', s') :: pre, s, post, by rw [h1]; rfl, ?_, ?_⟩
        · simp [dictAdd, he, h2]
        · rw [lookup_cons_ne _ _ (fun h => he h.symm)]
          exact h3

theorem dictRemove_append (d l : List (Str × List Str)) (k c : Str)
    (h : ∀ p ∈ d, p.1 ≠ k) : dictRemove (d ++ l) k c = d ++ dictRemove l k c := by
  induction d with
  | nil => rfl
  | cons p rest ih =>
    obtain ⟨k', s'⟩ := p
    have hk' : k' ≠ k := h (k', s') (List.mem_cons_self _ _)
    simp only [List.cons_append, dictRemove, if_neg hk']
    rw [List.append_eq, ih (fun p hp => h p (List.mem_cons_of_mem _ hp))]

theorem dictRemove_cons_self (k : Str) (s : List Str) (rest : List (Str × List Str)) (c : Str) :
    dictRemove ((k, s) :: rest) k c =
      if s.filter (fun y => y ≠ c) = [] then rest
      else (k, s.filter (fun y => y ≠ c)) :: rest := by
  simp [dictRemove]

theorem filter_setAdd (s : List Str) (c : Str) :
    (setAdd s c).filter (fun y => y ≠ c) = s.filter (fun y => y ≠ c) := by
  unfold setAdd
  by_cases h : s.contains c = true
  · rw [if_pos h]
  · rw [if_neg h, List.filter_append]
    simp

/-- Entries left in `to_insert` after `insert(x); delete(x)` (i.e.
`_add_to_transaction` followed by `_remove_from_transaction`): each is
either an untouched entry of another block, or the block of `x` with `x`
filtered out of its original set. -/
theorem dictAddRemove_spec (d : List (Str × List Str)) (k x : Str)
    (hk : (d.map Prod.fst).Nodup) :
    ∀ e ∈ dictRemove (dictAdd d k x) k x,
      (e ∈ d ∧ e.1 ≠ k) ∨
      (e.1 = k ∧ ∃ s, (k, s) ∈ d ∧ e.2 = s.filter (fun y => y ≠ x)) := by
  rcases dictAdd_cases d k x with ⟨h1, h2⟩ | ⟨pre, s, post, h1, h2, h3⟩
  · rw [h2]
    have hkeys : ∀ p ∈ d, p.1 ≠ k := lookup_none_iff.mp h1
    rw [dictRemove_append d [(k, [x])] k x hkeys]
    have hrem : dictRemove [(k, [x])] k x = [] := by
      simp [dictRemove]
    rw [hrem, List.append_nil]
    intro e he
    exact Or.inl ⟨he, hkeys e he⟩
  · have hmap : d.map Prod.fst = pre.map Prod.fst ++ k :: post.map Prod.fst := by
      rw [h1]
      simp
    rw [hmap] at hk
    have hpre : ∀ p ∈ pre, p.1 ≠ k := by
      intro p hp he
      have := (List.nodup_append.mp hk).2.2
      exact this (he ▸ List.mem_map_of_mem Prod.fst hp) (List.mem_cons_self _ _)
    have hpost : k ∉ post.map Prod.fst := by
      have := (List.nodup_append.mp hk).2.1
      exact (List.nodup_cons.mp this).1
    rw [h2, dictRemove_append pre _ k x hpre, dictRemove_cons_self, filter_setAdd]
    intro e he
    rcases List.mem_append.mp he with he | he
    · exact Or.inl ⟨h1 ▸ List.mem_append_left _ he, hpre e he⟩
    · by_cases hflt : s.filter (fun y => y ≠ x) = []
      · rw [if_pos hflt] at he
        refine Or.inl ⟨h1 ▸ List.mem_append_right _ (List.mem_cons_of_mem _ he), ?_⟩
        intro hek
        exact hpost (hek ▸ List.mem_map_of_mem Prod.fst he)
      · rw [if_neg hflt] at he
        rcases List.mem_cons.mp he with rfl | he
        · exact Or.inr ⟨rfl, s, h1 ▸ List.mem_append_right _ (List.mem_cons_self _ _), rfl⟩
        · refine Or.inl ⟨h1 ▸ List.mem_append_right _ (List.mem_cons_of_mem _ he), ?_⟩
          intro hek
          exact hpost (hek ▸ List.mem_map_of_mem Prod.fst he)

/-- `get` right after a commit: the transaction dictionaries are empty,
so the answer is exactly the member lookup in the committed filesystem. -/
theorem get_after_commit (db : DB) (now x : Str) (v : Option Str)
    (h : zipLookup ((commitCore db db.to_delete db.to_insert).2)
      (blockArchive db.storage db.structure_level x) x = v) :
    (((db.commit now).2).get x).1 = v := by
  obtain ⟨hcs, hcl, hcti, hctd, hcca, hcfs⟩ := commit_fields db now
  unfold DB.get
  rw [hcti, hctd]
  simp only [inTransB_nil, Bool.false_eq_true, if_false]
  rw [hcfs, hcs, hcl, h]
  cases v <;> rfl

/-- `exists` right after a commit answers `false` whenever the id is
neither in the committed block archive nor in the (post-commit) cache. -/
theorem exists_after_commit (db : DB) (now x : Str)
    (h : zipLookup ((commitCore db db.to_delete db.to_insert).2)
      (blockArchive db.storage db.structure_level x) x = none)
    (hc : db.cache.contains x = false) :
    (((db.commit now).2).existsOp x).1 = false := by
  obtain ⟨hcs, hcl, hcti, hctd, hcca, hcfs⟩ := commit_fields db now
  unfold DB.existsOp
  rw [hcti, hctd, hcca, hc]
  simp only [inTransB_nil, Bool.false_eq_true, if_false]
  rw [hcfs, hcs, hcl, h]

/-- The freshly opened example store satisfies all the state invariants. -/
theorem wf_freshEx : Wf freshEx := by
  constructor <;> simp [freshEx]

/-! Claim C1. -/

/-- C1 counterexample: on a store whose block archive already holds a
member `aabb` with content `OLD`, `insert("aabb","NEW"); commit()`
silently keeps the old member — `persist_certs` skips names already in
the archive and removes the temporary file — so `get("aabb")` returns
`OLD`, not the `NEW` bytes that were passed to the insert. -/
theorem insert_commit_get_stale :
    (c1staleC.get ("aabb".data)).1 = some ("OLD".data) ∧
    some ("OLD".data) ≠ some ("NEW".data) :=
  ⟨rfl, by decide⟩

/-- C1 (amended): on a well-formed store where the id is not yet
persisted in its block archive and has no leftover temporary file,
`insert(x,b); commit(); get(x)` returns exactly `b`. -/
theorem insert_commit_get (db : DB) (x b now : Str) (db1 : DB)
    (hwf : Wf db) (hx : SafeId x) (hb : b ≠ [])
    (htmp : db.fs (blockPath db.storage db.structure_level x ++ x) = none)
    (hfresh : ArchFresh db x)
    (hins : db.insert x b = Except.ok db1) :
    (((db1.commit now).2).get x).1 = some b := by
  have hninv : ¬(x = [] ∨ b = []) := by
    rintro (h | h)
    · exact hx.1 h
    · exact hb h
  simp only [DB.insert, htmp] at hins
  rw [if_neg hninv] at hins
  injection hins with hins
  have hs1 : db1.storage = db.storage := by rw [← hins]
  have hl1 : db1.structure_level = db.structure_level := by rw [← hins]
  have hfs1 : db1.fs = fsSet db.fs (blockPath db.storage db.structure_level x ++ x)
      (some (FSNode.file b)) := by rw [← hins]
  have hti1 : db1.to_insert =
      dictAdd db.to_insert (blockId db.storage db.structure_level x) x := by rw [← hins]
  have htd1 : db1.to_delete = db.to_delete := by rw [← hins]
  have hgbid : GoodKey db.storage db.structure_level (blockId db.storage db.structure_level x) :=
    goodKey_of_blockId _ _ hx.2.1 rfl
  have harch_ne_tmp : blockArchive db.storage db.structure_level x ≠
      blockPath db.storage db.structure_level x ++ x :=
    Ne.symm (temp_ne_archive db.storage db.structure_level hx hx.2.1)
  have hforeign : ∀ e ∈ db.to_insert, e.1 ≠ blockId db.storage db.structure_level x →
      (blockPath db.storage db.structure_level x ++ x ≠
        blockArchive db.storage db.structure_level e.1) ∧
      (∀ c ∈ e.2, blockPath db.storage db.structure_level x ++ x ≠
        blockPath db.storage db.structure_level e.1 ++ c) ∧
      (blockArchive db.storage db.structure_level x ≠
        blockArchive db.storage db.structure_level e.1) ∧
      (∀ c ∈ e.2, blockArchive db.storage db.structure_level x ≠
        blockPath db.storage db.structure_level e.1 ++ c) := by
    intro e he hekey
    obtain ⟨hne, hnd, hall⟩ := hwf.insMem e he
    obtain ⟨c0, hc0⟩ := List.exists_mem_of_ne_nil _ hne
    have hge : GoodKey db.storage db.structure_level e.1 :=
      goodKey_of_blockId _ _ (hall c0 hc0).1.2.1 (hall c0 hc0).2.1
    refine ⟨?_, ?_, ?_, ?_⟩
    · exact temp_ne_archive db.storage db.structure_level hx hge.2
    · intro c hc he2
      rw [blockPath_append, blockPath_append] at he2
      obtain ⟨hd, hxc⟩ := slash_append_inj hx.2.1 ((hall c hc).1).2.1 he2
      have hbid : blockId db.storage db.structure_level x = e.1 := by
        rw [hxc]
        exact (hall c hc).2.1
      exact hekey hbid.symm
    · rw [← blockArchive_blockId db.storage db.structure_level x]
      exact archive_inj db.storage db.structure_level hgbid hge (fun hh => hekey hh.symm)
    · intro c hc
      rw [← blockArchive_blockId db.storage db.structure_level x]
      exact Ne.symm (temp_ne_archive db.storage db.structure_level ((hall c hc).1) hgbid.2)
  have hforeign1 : ∀ e ∈ db.to_insert, e.1 ≠ blockId db.storage db.structure_level x →
      (blockPath db1.storage db1.structure_level x ++ x ≠
        blockArchive db1.storage db1.structure_level e.1) ∧
      (∀ c ∈ e.2, blockPath db1.storage db1.structure_level x ++ x ≠
        blockPath db1.storage db1.structure_level e.1 ++ c) ∧
      (blockArchive db1.storage db1.structure_level x ≠
        blockArchive db1.storage db1.structure_level e.1) ∧
      (∀ c ∈ e.2, blockArchive db1.storage db1.structure_level x ≠
        blockPath db1.storage db1.structure_level e.1 ++ c) := by
    intro e he hekey
    rw [hs1, hl1]
    exact hforeign e he hekey
  have hcond_del : ∀ e ∈ db.to_delete,
      blockPath db.storage db.structure_level x ++ x ≠
        blockArchive db1.storage db1.structure_level e.1 := by
    intro e he
    rw [hs1, hl1]
    obtain ⟨hne, hnd, hall⟩ := hwf.delMem e he
    obtain ⟨c0, hc0⟩ := List.exists_mem_of_ne_nil _ hne
    exact temp_ne_archive db.storage db.structure_level hx
      (goodKey_of_blockId _ _ (hall c0 hc0).1.2.1 (hall c0 hc0).2).2
  have htmp_d : ((db.to_delete.foldl (deleteStep db1)
      (0, fsSet db.fs (blockPath db.storage db.structure_level x ++ x)
        (some (FSNode.file b)))).2)
      (blockPath db.storage db.structure_level x ++ x) = some (FSNode.file b) := by
    rw [foldDel_at db1 db.to_delete
      (0, fsSet db.fs (blockPath db.storage db.structure_level x ++ x)
        (some (FSNode.file b)))
      (blockPath db.storage db.structure_level x ++ x) hcond_del]
    exact fsSet_self _ _ _
  have htmp_d1 : ((db.to_delete.foldl (deleteStep db1)
      (0, fsSet db.fs (blockPath db.storage db.structure_level x ++ x)
        (some (FSNode.file b)))).2)
      (blockPath db1.storage db1.structure_level x ++ x) = some (FSNode.file b) := by
    rw [hs1, hl1]
    exact htmp_d
  have harch_d : zipLookup ((db.to_delete.foldl (deleteStep db1)
      (0, fsSet db.fs (blockPath db.storage db.structure_level x ++ x)
        (some (FSNode.file b)))).2)
      (blockArchive db1.storage db1.structure_level x) x = none := by
    rw [hs1, hl1]
    apply foldDel_lookup
    have hv : (fsSet db.fs (blockPath db.storage db.structure_level x ++ x)
        (some (FSNode.file b))) (blockArchive db.storage db.structure_level x) =
        db.fs (blockArchive db.storage db.structure_level x) :=
      fsSet_other _ _ _ _ harch_ne_tmp
    exact (zipLookup_congr _ x hv).trans hfresh.1
  have hcore : zipLookup ((commitCore db1 db1.to_delete db1.to_insert).2)
      (blockArchive db1.storage db1.structure_level x) x = some b := by
    simp only [commitCore]
    rw [htd1, hti1, hfs1]
    rcases dictAdd_cases db.to_insert (blockId db.storage db.structure_level x) x with
      ⟨hlkp, hsplit⟩ | ⟨pre, s, post, hdeq, hsplit, hlkpre⟩
    · rw [hsplit]
      have hkeys : ∀ p ∈ db.to_insert, p.1 ≠ blockId db.storage db.structure_level x :=
        lookup_none_iff.mp hlkp
      exact foldIns_final_lookup db1 db.to_insert (blockId db.storage db.structure_level x)
        [x] [] _ x b (List.mem_singleton.mpr rfl)
        (by rw [hs1, hl1]; exact blockArchive_blockId _ _ _)
        (by rw [hs1, hl1]; exact blockPath_blockId _ _ _)
        (fun e he => hforeign1 e he (hkeys e he))
        (fun e he => absurd he (List.not_mem_nil e))
        htmp_d1 harch_d
    · have hbidmem : (blockId db.storage db.structure_level x, s) ∈ db.to_insert := by
        rw [hdeq]
        exact List.mem_append_right _ (List.mem_cons_self _ _)
      have hxs : x ∉ s := by
        intro hxs
        obtain ⟨hne, hnd, hall⟩ := hwf.insMem _ hbidmem
        have hfile := (hall x hxs).2.2
        rw [blockPath_blockId] at hfile
        rw [htmp] at hfile
        simp [isFileB] at hfile
      rw [hsplit, setAdd_not_mem hxs]
      have hmapk : db.to_insert.map Prod.fst =
          pre.map Prod.fst ++ (blockId db.storage db.structure_level x) :: post.map Prod.fst := by
        rw [hdeq]
        simp
      have hk := hwf.insKeys
      rw [hmapk] at hk
      have hprek : ∀ p ∈ pre, p.1 ≠ blockId db.storage db.structure_level x := by
        intro p hp he
        exact (List.nodup_append.mp hk).2.2 (he ▸ List.mem_map_of_mem Prod.fst hp)
          (List.mem_cons_self _ _)
      have hpostk : ∀ p ∈ post, p.1 ≠ blockId db.storage db.structure_level x := by
        intro p hp he
        have hnp : (blockId db.storage db.structure_level x) ∉ post.map Prod.fst :=
          (List.nodup_cons.mp (List.nodup_append.mp hk).2.1).1
        exact hnp (he ▸ List.mem_map_of_mem Prod.fst hp)
      have hprem : ∀ p ∈ pre, p ∈ db.to_insert := by
        intro p hp
        rw [hdeq]
        exact List.mem_append_left _ hp
      have hpostm : ∀ p ∈ post, p ∈ db.to_insert := by
        intro p hp
        rw [hdeq]
        exact List.mem_append_right _ (List.mem_cons_of_mem _ hp)
      exact foldIns_final_lookup db1 pre (blockId db.storage db.structure_level x)
        (s ++ [x]) post _ x b (List.mem_append_right _ (List.mem_singleton.mpr rfl))
        (by rw [hs1, hl1]; exact blockArchive_blockId _ _ _)
        (by rw [hs1, hl1]; exact blockPath_blockId _ _ _)
        (fun e he => hforeign1 e (hprem e he) (hprek e he))
        (fun e he => ⟨(hforeign1 e (hpostm e he) (hpostk e he)).2.2.1,
          (hforeign1 e (hpostm e he) (hpostk e he)).2.2.2⟩)
        htmp_d1 harch_d
  exact get_after_commit db1 now x (some b) hcore

/-- Witness for the amended C1: `insert("aabb","B1"); commit();
get("aabb")` on the fresh store returns `B1`. -/
theorem insert_commit_get_witness :
    (((c1ins.commit ("t".data)).2).get ("aabb".data)).1 = some ("B1".data) :=
  insert_commit_get freshEx ("aabb".data) ("B1".data) ("t".data) c1ins
    wf_freshEx (by decide) (by decide) rfl (by decide) rfl

/-! Claim C4, amended direction. -/

/-- C4 (amended): from a well-formed store where the id is not already
persisted in its block archive, `insert(x,b); delete(x); commit()`
leaves `exists(x) == false` — the delete cancels the pending insert
(removing it from `to_insert` and deleting the temporary file) and drops
the id from the cache, so nothing about `x` reaches the archives. -/
theorem insert_delete_commit_not_exists (db : DB) (x b now : Str) (db1 db2 : DB)
    (hwf : Wf db) (hx : SafeId x) (hb : b ≠ [])
    (hfresh : ArchFresh db x)
    (hins : db.insert x b = Except.ok db1)
    (hdel : db1.delete x = Except.ok db2) :
    (((db2.commit now).2).existsOp x).1 = false := by
  have hninv : ¬(x = [] ∨ b = []) := by
    rintro (h | h)
    · exact hx.1 h
    · exact hb h
  have harch_ne_tmp : blockArchive db.storage db.structure_level x ≠
      blockPath db.storage db.structure_level x ++ x :=
    Ne.symm (temp_ne_archive db.storage db.structure_level hx hx.2.1)
  simp only [DB.insert] at hins
  rw [if_neg hninv] at hins
  injection hins with hins
  have hs1 : db1.storage = db.storage := by rw [← hins]
  have hl1 : db1.structure_level = db.structure_level := by rw [← hins]
  have hca1 : db1.cache = db.cache := by rw [← hins]
  have hti1 : db1.to_insert =
      dictAdd db.to_insert (blockId db.storage db.structure_level x) x := by rw [← hins]
  have htd1 : db1.to_delete = db.to_delete := by rw [← hins]
  have hfs_arch : db1.fs (blockArchive db.storage db.structure_level x) =
      db.fs (blockArchive db.storage db.structure_level x) := by
    rw [← hins]
    show (match db.fs (blockPath db.storage db.structure_level x ++ x) with
      | some _ => db.fs
      | none => fsSet db.fs (blockPath db.storage db.structure_level x ++ x)
          (some (FSNode.file b)))
      (blockArchive db.storage db.structure_level x) =
      db.fs (blockArchive db.storage db.structure_level x)
    cases hm : db.fs (blockPath db.storage db.structure_level x ++ x) with
    | none => exact fsSet_other _ _ _ _ harch_ne_tmp
    | some w => rfl
  have hxne : ¬(x = []) := fun h => hx.1 h
  have hpend : inTransB db1.to_insert (blockId db1.storage db1.structure_level x) x = true := by
    rw [hti1, hs1, hl1]
    exact dictAdd_inTrans _ _ _
  simp only [DB.delete] at hdel
  rw [if_neg hxne, if_pos hpend] at hdel
  injection hdel with hdel
  have hs2 : db2.storage = db.storage := by
    rw [← hdel]
    show db1.storage = db.storage
    exact hs1
  have hl2 : db2.structure_level = db.structure_level := by
    rw [← hdel]
    show db1.structure_level = db.structure_level
    exact hl1
  have hti2 : db2.to_insert =
      dictRemove db1.to_insert (blockId db1.storage db1.structure_level x) x := by
    rw [← hdel]
  have hti2' : db2.to_insert =
      dictRemove (dictAdd db.to_insert (blockId db.storage db.structure_level x) x)
        (blockId db.storage db.structure_level x) x := by
    rw [hti2, hti1, hs1, hl1]
  have htd2 : db2.to_delete = db.to_delete := by
    rw [← hdel]
    show db1.to_delete = db.to_delete
    exact htd1
  have hca2 : db2.cache = db.cache.filter (fun y => y ≠ x) := by
    rw [← hdel]
    show db1.cache.filter (fun y => y ≠ x) = db.cache.filter (fun y => y ≠ x)
    rw [hca1]
  have hfs2arch : db2.fs (blockArchive db.storage db.structure_level x) =
      db.fs (blockArchive db.storage db.structure_level x) := by
    rw [← hdel]
    show fsSet db1.fs (blockPath db1.storage db1.structure_level x ++ x) none
        (blockArchive db.storage db.structure_level x) =
      db.fs (blockArchive db.storage db.structure_level x)
    rw [hs1, hl1]
    rw [fsSet_other _ _ _ _ harch_ne_tmp]
    exact hfs_arch
  have harch0 : zipLookup db2.fs (blockArchive db2.storage db2.structure_level x) x = none := by
    rw [hs2, hl2]
    exact (zipLookup_congr _ x hfs2arch).trans hfresh.1
  have hcore : zipLookup ((commitCore db2 db2.to_delete db2.to_insert).2)
      (blockArchive db2.storage db2.structure_level x) x = none := by
    simp only [commitCore]
    rw [htd2, hti2']
    have hd : zipLookup ((db.to_delete.foldl (deleteStep db2) (0, db2.fs)).2)
        (blockArchive db2.storage db2.structure_level x) x = none :=
      foldDel_lookup db2 db.to_delete (0, db2.fs)
        (blockArchive db2.storage db2.structure_level x) x harch0
    refine foldIns_lookup db2 _ _ _ x hd ?_ ?_
    · intro e he
      rcases dictAddRemove_spec db.to_insert (blockId db.storage db.structure_level x) x
        hwf.insKeys e he with ⟨hmem, hkne⟩ | ⟨hek, s, hsmem, hes⟩
      · intro hxe
        obtain ⟨hne, hnd, hall⟩ := hwf.insMem e hmem
        exact hkne ((hall x hxe).2.1).symm
      · rw [hes]
        intro hxe
        have := (List.mem_filter.mp hxe).2
        simp at this
    · intro e he c hc
      rw [hs2, hl2]
      rcases dictAddRemove_spec db.to_insert (blockId db.storage db.structure_level x) x
        hwf.insKeys e he with ⟨hmem, hkne⟩ | ⟨hek, s, hsmem, hes⟩
      · obtain ⟨hne, hnd, hall⟩ := hwf.insMem e hmem
        have hsc : SafeId c := (hall c hc).1
        rw [← blockArchive_blockId db.storage db.structure_level x]
        exact Ne.symm (temp_ne_archive db.storage db.structure_level hsc
          (goodKey_of_blockId db.storage db.structure_level hx.2.1 rfl).2)
      · have hcs : c ∈ s := List.mem_of_mem_filter (hes ▸ hc)
        obtain ⟨hne, hnd, hall⟩ := hwf.insMem _ hsmem
        have hsc : SafeId c := (hall c hcs).1
        rw [hek, ← blockArchive_blockId db.storage db.structure_level x]
        exact Ne.symm (temp_ne_archive db.storage db.structure_level hsc
          (goodKey_of_blockId db.storage db.structure_level hx.2.1 rfl).2)
  have hcc : db2.cache.contains x = false := by
    rw [hca2]
    exact filter_ne_not_contains _ _
  exact exists_after_commit db2 now x hcore hcc

/-- Witness for the amended C4: `insert("aabb","C1"); delete("aabb");
commit(); exists("aabb")` answers `false` on the fresh store. -/
theorem insert_delete_commit_not_exists_witness :
    (((c5adel.commit ("t".data)).2).existsOp ("aabb".data)).1 = false :=
  insert_delete_commit_not_exists freshEx ("aabb".data) ("C1".data) ("t".data) c5a c5adel
    wf_freshEx (by decide) (by decide) (by decide) rfl rfl

end Cevast
